import Mathlib

/-!
A shallow embedding of the core of the `whkd` hotkey daemon
(`src/main.rs` and `src/parser.rs`): the configuration grammar, the
binding normalizer, the mode state machine and the event dispatcher.

Conventions of the embedding:
* Rust `Option`/`Result` become Lean `Option`/explicit result inductives.
* A Rust panic (`unwrap` on `None`) is a distinguished `panicked` result
  constructor: the function has no normal return value there.
* `HashMap`s become association lists; iteration order only matters in
  places where the claims do not depend on it (noted locally).
* The OS hotkey manager (`GlobalHotKeyManager`) is modelled by the set of
  currently registered handles; `register_all`/`unregister_all` ignore
  per-handle errors exactly as the source discards their `Result`s.
-/

namespace Whkd

/-- Model of the `global_hotkey::hotkey::Modifiers` bitflags value:
four independent flag bits (CONTROL, ALT, SHIFT, SUPER). -/
structure Modifiers where
  ctrl : Bool
  alt : Bool
  shift : Bool
  superMod : Bool
deriving DecidableEq, Repr

/-- `Modifiers::empty()`. -/
def Modifiers.empty : Modifiers := ⟨false, false, false, false⟩

/-- Bitwise or of two modifier sets (the `|=` in `try_from`). -/
def Modifiers.or (a b : Modifiers) : Modifiers :=
  ⟨a.ctrl || b.ctrl, a.alt || b.alt, a.shift || b.shift, a.superMod || b.superMod⟩

/-- `Modifiers::is_empty()`. -/
def Modifiers.isEmpty (a : Modifiers) : Bool :=
  !(a.ctrl || a.alt || a.shift || a.superMod)

def Modifiers.CONTROL : Modifiers := ⟨true, false, false, false⟩
def Modifiers.ALT : Modifiers := ⟨false, true, false, false⟩
def Modifiers.SHIFT : Modifiers := ⟨false, false, true, false⟩
def Modifiers.SUPER : Modifiers := ⟨false, false, false, true⟩

/-- Model of `global_hotkey::hotkey::Code`: the 27 codes named in
`key_code_from_string`'s canonical table, plus `ext s` standing for any
other platform key code that `Code::from_str` (an external library
function) may produce from the string `s`. -/
inductive Code where
  | KeyA | KeyB | KeyC | KeyD | KeyE | KeyF | KeyG | KeyH | KeyI | KeyJ
  | KeyK | KeyL | KeyM | KeyN | KeyO | KeyP | KeyQ | KeyR | KeyS | KeyT
  | KeyU | KeyV | KeyW | KeyX | KeyY | KeyZ
  | Escape
  | ext (s : String)
deriving DecidableEq, Repr

/-- The canonical arms of the `match` in `key_code_from_string`
(`src/main.rs` lines 94-121), keyed by the already-lowercased token. -/
def keyCodeCanonical (key : String) : Option Code :=
  match key with
  | "a" => some Code.KeyA
  | "b" => some Code.KeyB
  | "c" => some Code.KeyC
  | "d" => some Code.KeyD
  | "e" => some Code.KeyE
  | "f" => some Code.KeyF
  | "g" => some Code.KeyG
  | "h" => some Code.KeyH
  | "i" => some Code.KeyI
  | "j" => some Code.KeyJ
  | "k" => some Code.KeyK
  | "l" => some Code.KeyL
  | "m" => some Code.KeyM
  | "n" => some Code.KeyN
  | "o" => some Code.KeyO
  | "p" => some Code.KeyP
  | "q" => some Code.KeyQ
  | "r" => some Code.KeyR
  | "s" => some Code.KeyS
  | "t" => some Code.KeyT
  | "u" => some Code.KeyU
  | "v" => some Code.KeyV
  | "w" => some Code.KeyW
  | "x" => some Code.KeyX
  | "y" => some Code.KeyY
  | "z" => some Code.KeyZ
  | "escape" => some Code.Escape
  | _ => none

/-- Rust `str::to_lowercase` as it acts on the grammar's ASCII key
tokens: character-wise lowercasing. -/
def strToLower (s : String) : String := String.mk (s.toList.map Char.toLower)

/-- `key_code_from_string` (`src/main.rs` lines 93-124): the token is
lowercased for the canonical table; the fallback arm passes the ORIGINAL
token to `Code::from_str` (modelled by the parameter `fromStr`, an
external library function) and converts its `Result` with `.ok()`. -/
def keyCodeFromString (fromStr : String → Option Code) (key : String) : Option Code :=
  match keyCodeCanonical (strToLower key) with
  | some c => some c
  | none => fromStr key

/-- `modifier_from_string` (`src/main.rs` lines 126-134); unrecognized
modifier tokens yield the empty modifier set. -/
def modifierFromString (modifier : String) : Modifiers :=
  match modifier with
  | "ctrl" => Modifiers.CONTROL
  | "alt" => Modifiers.ALT
  | "shift" => Modifiers.SHIFT
  | "super" => Modifiers.SUPER
  | _ => Modifiers.empty

/-- `HotkeyBinding` (`src/parser.rs` lines 5-12), the parser's output. -/
structure HotkeyBinding where
  mode : Option String
  keys : List String
  command : Option String
  internal_action : Option (Option String)
  process_name : Option String
deriving DecidableEq, Repr

/-- `HkmData` (`src/main.rs` lines 55-63). The Rust struct derives
`PartialEq`, `Eq` and `Hash`, i.e. STRUCTURAL equality over all six
fields; Lean's `DecidableEq` derivation is exactly that. -/
structure HkmData where
  mode : Option String
  mod_keys : Option Modifiers
  vkey : Code
  command : Option String
  internal_action : Option (Option String)
  process_name : Option String
deriving DecidableEq, Repr

/-- `slice::split_last` as used in `try_from`: `keys.split_last()`
returns `(last, init)`, or `None` on the empty slice. -/
def splitLast : List String → Option (String × List String)
  | [] => none
  | [a] => some (a, [])
  | a :: rest =>
    match splitLast rest with
    | none => none
    | some (t, ms) => some (t, a :: ms)

/-- Result of `HkmData::try_from`. The Rust impl declares
`type Error = HkError` (the `err` constructor) but every failure path in
its body is an `unwrap()`, i.e. a panic (`panicked`). -/
inductive TfResult where
  | ok (d : HkmData)
  | err
  | panicked
deriving DecidableEq, Repr

/-- `HkmData::try_from` (`src/main.rs` lines 65-91):
`split_last().unwrap()` panics on an empty `keys` list;
`key_code_from_string(trigger).unwrap()` panics on an unknown trigger;
modifiers are or-folded; an empty modifier set becomes `None`. -/
def tryFrom (fromStr : String → Option Code) (value : HotkeyBinding) : TfResult :=
  match splitLast value.keys with
  | none => TfResult.panicked
  | some (trigger, mods) =>
    match keyCodeFromString fromStr trigger with
    | none => TfResult.panicked
    | some vkey =>
      let modKeys := mods.foldl (fun acc m => acc.or (modifierFromString m)) Modifiers.empty
      let modKeys := if modKeys.isEmpty then none else some modKeys
      TfResult.ok
        { mode := value.mode
          mod_keys := modKeys
          vkey := vkey
          command := value.command
          internal_action := value.internal_action
          process_name := value.process_name }

/-! ## Parser combinators

A shallow embedding of the chumsky combinators used in `src/parser.rs`.
A parser is a function from the remaining input to `none` (failure, no
input consumed: chumsky backtracks alternatives from the saved offset)
or `some (output, rest)`. -/

/-- Chumsky-style parser over characters. -/
def PC (α : Type) : Type := List Char → Option (α × List Char)

/-- `just(s)` for a literal string; outputs the matched literal. -/
def justSP (s : String) : PC String := fun l =>
  if l.take s.toList.length = s.toList then some (s, l.drop s.toList.length) else none

/-- `.map(f)`. -/
def mapP (f : α → β) (p : PC α) : PC β := fun l =>
  (p l).map (fun ar => (f ar.1, ar.2))

/-- `.then(q)`: run `p`, then `q` on the rest, pairing the outputs. -/
def seqP (p : PC α) (q : PC β) : PC (α × β) := fun l =>
  (p l).bind fun ar => (q ar.2).map fun br => ((ar.1, br.1), br.2)

/-- `.then_ignore(q)`. -/
def thenIgnoreP (p : PC α) (q : PC β) : PC α := mapP Prod.fst (seqP p q)

/-- `.ignore_then(q)`. -/
def ignoreThenP (p : PC α) (q : PC β) : PC β := mapP Prod.snd (seqP p q)

/-- `.ignored()`. -/
def ignoredP (p : PC α) : PC Unit := mapP (fun _ => ()) p

/-- `.or_not()`. -/
def orNotP (p : PC α) : PC (Option α) := fun l =>
  match p l with
  | some (a, r) => some (some a, r)
  | none => some (none, l)

/-- `choice((...))`: ordered alternatives with backtracking. -/
def choiceP (ps : List (PC α)) : PC α := fun l =>
  ps.foldr (fun p acc => match p l with | some r => some r | none => acc) none

/-- The whitespace run skipped by `.padded()` (Rust
`char::is_whitespace`; the configuration grammar only ever meets ASCII
whitespace, which `Char.isWhitespace` covers). -/
def wsP : PC Unit := fun l => some ((), l.dropWhile Char.isWhitespace)

/-- `.padded()`: whitespace on both sides. -/
def paddedP (p : PC α) : PC α := ignoreThenP wsP (thenIgnoreP p wsP)

/-- `end()`. -/
def endP : PC Unit := fun l =>
  match l with
  | [] => some ((), [])
  | _ :: _ => none

/-- `text::newline()` (the `\x0B`-style exotic newline characters never
occur in the grammar's inputs and are omitted). -/
def newlineP : PC Unit := fun l =>
  match l with
  | [] => none
  | c :: r =>
    if c = '\r' then
      match r with
      | '\n' :: r2 => some ((), r2)
      | _ => some ((), r)
    else if c = '\n' then some ((), r)
    else none

/-- `.not()`: succeeds on one input character exactly when the inner
parser fails at this position. -/
def notP (p : PC α) : PC Char := fun l =>
  match p l with
  | some _ => none
  | none =>
    match l with
    | [] => none
    | c :: r => some (c, r)

/-- Continuation character of a `text::ident()`. -/
def identChar (c : Char) : Bool := c.isAlphanum || c = '_'

/-- Leading character of a `text::ident()`. -/
def identStart (c : Char) : Bool := c.isAlpha || c = '_'

/-- `text::ident()`: a C-style identifier. -/
def identP : PC String := fun l =>
  match l with
  | [] => none
  | c :: r =>
    if identStart c then some (String.mk (c :: r.takeWhile identChar), r.dropWhile identChar)
    else none

/-- `text::int(10)`: digits with no leading zero. -/
def intP : PC String := fun l =>
  match l with
  | [] => none
  | c :: r =>
    if c = '0' then some ("0", r)
    else if c.isDigit then
      some (String.mk (c :: r.takeWhile Char.isDigit), r.dropWhile Char.isDigit)
    else none

/-- `take_until(p)`: characters up to (and including) the first success
of `p`; outputs the skipped characters and `p`'s output. -/
def takeUntilGo (p : PC α) : List Char → Option ((List Char × α) × List Char)
  | [] =>
    match p [] with
    | some (a, r) => some (([], a), r)
    | none => none
  | c :: r =>
    match p (c :: r) with
    | some (a, rest) => some (([], a), rest)
    | none =>
      match takeUntilGo p r with
      | some ((cs, a), rest) => some ((c :: cs, a), rest)
      | none => none

/-- `take_until(p)`. -/
def takeUntilP (p : PC α) : PC (List Char × α) := fun l => takeUntilGo p l

/-- Greedy repetition with a fuel bound. An iteration that succeeds
without consuming input stops the loop (chumsky would diverge there; no
parser of this grammar can match empty inside a `repeated`). -/
def manyGo (p : PC α) : Nat → List Char → List α × List Char
  | 0, l => ([], l)
  | Nat.succ fuel, l =>
    match p l with
    | none => ([], l)
    | some (a, r) =>
      if r.length < l.length then
        let res := manyGo p fuel r
        (a :: res.1, res.2)
      else ([], l)

/-- `.repeated()`: zero or more, greedy. -/
def manyP (p : PC α) : PC (List α) := fun l => some (manyGo p (l.length + 1) l)

/-- `.repeated().at_least(n)`. -/
def atLeastP (n : Nat) (p : PC α) : PC (List α) := fun l =>
  match manyP p l with
  | some (as, r) => if n ≤ as.length then some (as, r) else none
  | none => none

/-- `.repeated().exactly(1)`: one occurrence, then stop. -/
def exactlyOneP (p : PC α) : PC (List α) := fun l =>
  (p l).map (fun ar => ([ar.1], ar.2))

/-- The `(sep item)*` tail loop of `separated_by`. -/
def sepTailGo (sep : PC σ) (p : PC α) : Nat → List Char → List α × List Char
  | 0, l => ([], l)
  | Nat.succ fuel, l =>
    match (ignoreThenP sep p) l with
    | none => ([], l)
    | some (a, r) =>
      if r.length < l.length then
        let res := sepTailGo sep p fuel r
        (a :: res.1, res.2)
      else ([], l)

/-- `.separated_by(sep)`: zero or more items (no leading or trailing
separator). -/
def separatedByP (p : PC α) (sep : PC σ) : PC (List α) := fun l =>
  match p l with
  | none => some ([], l)
  | some (a, r) =>
    let res := sepTailGo sep p (r.length + 1) r
    some (a :: res.1, res.2)

/-! ## The whkdrc document and grammar (`src/parser.rs`) -/

/-- Modelled from the spec: `whkdrc.rs` is not among the sources; the
spec gives `Shell` as "a small closed set of shell identifiers", and the
parser admits exactly the names `pwsh`, `powershell`, `cmd`. -/
inductive Shell where
  | pwsh
  | powershell
  | cmd
deriving DecidableEq, Repr

/-- Modelled from the spec: `Shell::from(String)` (in the missing
`whkdrc.rs`) maps each member of the closed identifier set to its shell;
the parser only ever feeds it one of the three names, so the catch-all
arm is unreachable. Rust cannot name a function `from` freestanding in
Lean, hence `ofString`. -/
def Shell.ofString (s : String) : Shell :=
  match s with
  | "pwsh" => Shell.pwsh
  | "powershell" => Shell.powershell
  | _ => Shell.cmd

/-- `Whkdrc` (declared in the missing `whkdrc.rs`; its shape — `shell`,
`app_bindings`, `bindings` — is fixed by the construction at the end of
`parser()`, `src/parser.rs` lines 133-137). -/
structure Whkdrc where
  shell : Shell
  app_bindings : List (List String × List HotkeyBinding)
  bindings : List HotkeyBinding
deriving DecidableEq, Repr

/-- `comment`: `just("#").then(take_until(text::newline())).padded().ignored()`. -/
def commentP : PC Unit :=
  ignoredP (paddedP (seqP (justSP "#") (takeUntilP newlineP)))

/-- `comment.repeated()` as used by `padded_by`. -/
def commentsP : PC (List Unit) := manyP commentP

/-- `.padded_by(comment.repeated())`. -/
def paddedByCommentsP (p : PC α) : PC α :=
  thenIgnoreP (ignoreThenP commentsP p) commentsP

/-- One `.shell <name>` directive:
`just(".shell").padded().ignore_then(choice((just("pwsh"), just("powershell"), just("cmd"))))`. -/
def shellItemP : PC String :=
  ignoreThenP (paddedP (justSP ".shell"))
    (choiceP [justSP "pwsh", justSP "powershell", justSP "cmd"])

/-- `shell` (`src/parser.rs` lines 21-27): the directive is repeated
EXACTLY ONCE — it is mandatory — then collected and converted. -/
def shellP : PC Shell :=
  mapP (fun ss => Shell.ofString (String.join ss)) (exactlyOneP shellItemP)

/-- `mode_delimiter = just(">").padded()`. -/
def modeDelimiterP : PC String := paddedP (justSP ">")

/-- `mode_selector` (`src/parser.rs` lines 30-38): an optional
`ident >`, with the literal `default` collapsed to `None`. -/
def modeSelectorP : PC (Option String) :=
  mapP (fun a => if a = some "default" then none else a)
    (orNotP (thenIgnoreP (paddedP identP) modeDelimiterP))

/-- `change_mode_delimiter = just(";").padded()`. -/
def changeModeDelimiterP : PC String := paddedP (justSP ";")

/-- `change_mode` (`src/parser.rs` lines 41-43): an identifier, with the
literal `default` mapped to `None`. -/
def changeModeP : PC (Option String) :=
  mapP (fun a => if a = "default" then none else some a) (paddedP identP)

/-- `hotkeys` (`src/parser.rs` lines 45-48). -/
def hotkeysP : PC (List String) :=
  separatedByP (paddedP (choiceP [identP, intP])) (justSP "+")

/-- `delimiter = just(":").padded()`. -/
def delimiterP : PC String := paddedP (justSP ":")

/-- The terminator alternatives of `command`: a comment, a newline, a
(padded) `;`, or the end of input. -/
def cmdStopP : PC Unit :=
  choiceP [commentP, newlineP, ignoredP changeModeDelimiterP, endP]

/-- `command` (`src/parser.rs` lines 52-61): every character at which
no terminator alternative starts. -/
def commandP : PC String :=
  mapP String.mk (paddedP (manyP (notP cmdStopP)))

/-- `process_name` (`src/parser.rs` lines 63-67). -/
def processNameP : PC String :=
  mapP (fun ss => String.intercalate " " ss) (atLeastP 1 (paddedP identP))

/-- `process_mapping` (`src/parser.rs` lines 69-75). -/
def processMappingP : PC (List (String × String)) :=
  atLeastP 1 (paddedByCommentsP (paddedP (seqP (thenIgnoreP processNameP delimiterP) commandP)))

/-- `process_command_map` (`src/parser.rs` lines 77-82). -/
def processCommandMapP : PC (List (String × String)) :=
  thenIgnoreP (paddedByCommentsP (paddedP (ignoreThenP (justSP "[") processMappingP)))
    (justSP "]")

/-- `action` (`src/parser.rs` lines 84-92): either `: command [; mode]`
or a bare `; mode`. -/
def actionP : PC (Option String × Option (Option String)) :=
  choiceP
    [ mapP (fun ab => (some ab.1, ab.2))
        (seqP (ignoreThenP delimiterP commandP)
          (orNotP (ignoreThenP changeModeDelimiterP changeModeP)))
    , mapP (fun a => ((none : Option String), some a))
        (ignoreThenP changeModeDelimiterP changeModeP) ]

/-- `binding = mode_selector.then(hotkeys).then(action)`. -/
def bindingP : PC ((Option String × List String) × (Option String × Option (Option String))) :=
  seqP (seqP modeSelectorP hotkeysP) actionP

/-- The `binding.map(...)` constructor (`src/parser.rs` lines 121-127):
a direct binding always has `process_name: None`. -/
def mkDirect (x : (Option String × List String) × (Option String × Option (Option String))) :
    HotkeyBinding :=
  { mode := x.1.1
    keys := x.1.2
    command := x.2.1
    internal_action := x.2.2
    process_name := none }

/-- `process_bindings = hotkeys.then(process_command_map)` with the
`.map` of `src/parser.rs` lines 100-113: one binding per
`(process, command)` pair, each with `mode: None` and a set filter. -/
def processBindingsP : PC (List String × List HotkeyBinding) :=
  mapP
    (fun ka =>
      (ka.1, ka.2.map (fun ac =>
        { mode := none
          keys := ka.1
          command := some ac.2
          internal_action := none
          process_name := some ac.1 : HotkeyBinding })))
    (seqP hotkeysP processCommandMapP)

/-- The process-scoped section: zero or more blocks, each padded and
comment-padded (`src/parser.rs` lines 98-118). -/
def appItemsP : PC (List (List String × List HotkeyBinding)) :=
  atLeastP 0 (paddedByCommentsP (paddedP processBindingsP))

/-- The direct-binding section: one or more direct bindings, each padded
and comment-padded (`src/parser.rs` lines 119-132). -/
def directItemsP : PC (List HotkeyBinding) :=
  atLeastP 1 (paddedByCommentsP (paddedP (mapP mkDirect bindingP)))

/-- `parser()` (`src/parser.rs` lines 15-138): shell directive, then
process blocks, then direct bindings. -/
def whkdrcP : PC Whkdrc :=
  mapP (fun x => { shell := x.1.1, app_bindings := x.1.2, bindings := x.2 : Whkdrc })
    (seqP (seqP shellP appItemsP) directItemsP)

/-- `parser().parse(src)`: run the parser from the start of the input
(chumsky's `parse` does not itself demand that all input be consumed;
`end()` appears only inside the `command` terminator alternatives). -/
def parseWhkdrc (s : String) : Option Whkdrc :=
  (whkdrcP s.toList).map Prod.fst

/-! ## The mode state machine (`ModeManager`, `src/main.rs` lines 286-349)

`HashMap`s become association lists (iteration order is irrelevant to
the claims settled here); `GlobalHotKeyManager` becomes the finite set
of currently registered handles. A `HotKey` is determined by its
modifiers and code (`HotKey::new(mods, key)`); its `id()` is a hash of
those two fields, modelled by an arbitrary function `HotKey → Nat` where
it matters (the dispatcher's reverse lookup). -/

/-- `global_hotkey::hotkey::HotKey` as constructed by
`HotKey::new(data.mod_keys, data.vkey)`. -/
structure HotKey where
  mods : Option Modifiers
  key : Code
deriving DecidableEq, Repr

/-- `HotKey::new`. -/
def HotKey.new (mods : Option Modifiers) (key : Code) : HotKey := ⟨mods, key⟩

/-- First-match association-list lookup (`HashMap::get`). -/
def assocFind [DecidableEq κ] : List (κ × ν) → κ → Option ν
  | [], _ => none
  | (k', v) :: rest, k => if k' = k then some v else assocFind rest k

/-- `binding_map.entry(k).or_insert_with(Vec::new).push(d)`: append `d`
to the vector at `k`, creating the entry if absent. -/
def pushEntry : List (Option String × List HkmData) → Option String → HkmData →
    List (Option String × List HkmData)
  | [], k, d => [(k, [d])]
  | (k', v) :: rest, k, d =>
    if k' = k then (k', v ++ [d]) :: rest else (k', v) :: pushEntry rest k d

/-- `hotkeys.insert(k, v)`: replace the value at `k`, or append the new
pair. -/
def insertAssoc [DecidableEq κ] : List (κ × ν) → κ → ν → List (κ × ν)
  | [], k, v => [(k, v)]
  | (k', v') :: rest, k, v =>
    if k' = k then (k, v) :: rest else (k', v') :: insertAssoc rest k v

/-- The mutable state of a `ModeManager` together with the OS-side
registration set. `binding_map` and `hotkeys` are structurally immutable
after construction (they sit behind plain `Arc`s); only `mode` and the
OS `registered` set change. -/
structure MMState where
  mode : Option String
  binding_map : List (Option String × List HkmData)
  hotkeys : List (HkmData × HotKey)
  registered : Finset HotKey
deriving DecidableEq

/-- Result of `ModeManager::new`: `err` is the `?`-propagated `HkError`
(never produced, since `try_from` never returns one), `panicked` a panic
inside `try_from`. -/
inductive NewResult where
  | ok (s : MMState)
  | err
  | panicked
deriving DecidableEq

/-- The loop body of `ModeManager::new` (`src/main.rs` lines 299-308)
over the remaining bindings, carrying the two maps built so far. -/
def newGo (fromStr : String → Option Code) :
    List HotkeyBinding → List (Option String × List HkmData) → List (HkmData × HotKey) →
    NewResult
  | [], bm, hks => NewResult.ok { mode := none, binding_map := bm, hotkeys := hks, registered := ∅ }
  | b :: rest, bm, hks =>
    match tryFrom fromStr b with
    | TfResult.panicked => NewResult.panicked
    | TfResult.err => NewResult.err
    | TfResult.ok data =>
        newGo fromStr rest (pushEntry bm data.mode data)
          (insertAssoc hks data (HotKey.new data.mod_keys data.vkey))

/-- `ModeManager::new` (`src/main.rs` lines 295-316): normalizes every
binding, groups descriptors by mode, creates one `HotKey` per distinct
descriptor. It registers nothing with the OS (`registered = ∅`); the
current mode starts at `None`. -/
def ModeManager.new (fromStr : String → Option Code) (bindings : List HotkeyBinding) :
    NewResult :=
  newGo fromStr bindings [] []

/-- Result of `activate_mode`: the Rust function's only error exit is a
panic (`lock.get(h).unwrap()` on a descriptor missing from `hotkeys`);
its `Result` value is always `Ok(())`. -/
inductive ActResult where
  | ok (s : MMState)
  | panicked
deriving DecidableEq

/-- The `v.iter().map(|h| lock.get(h).unwrap())` collection inside
`activate_mode`: `none` is the panic on a descriptor missing from the
`hotkeys` table. -/
def collectHandles (hks : List (HkmData × HotKey)) : List HkmData → Option (List HotKey)
  | [] => some []
  | h :: rest =>
    match assocFind hks h with
    | none => none
    | some hk =>
      match collectHandles hks rest with
      | none => none
      | some hs => some (hk :: hs)

/-- `ModeManager::activate_mode` (`src/main.rs` lines 318-348):
unregister every handle of the CURRENT mode's descriptor vector
(`Vec::new()` when the mode has no entry), set the mode, register every
handle of the TARGET mode's vector. The discarded `Result`s of
`unregister_all`/`register_all` make the OS set evolve by plain set
difference and union. -/
def activateMode (s : MMState) (mode : Option String) : ActResult :=
  match collectHandles s.hotkeys ((assocFind s.binding_map s.mode).getD []) with
  | none => ActResult.panicked
  | some oldH =>
    match collectHandles s.hotkeys ((assocFind s.binding_map mode).getD []) with
    | none => ActResult.panicked
    | some newH =>
        ActResult.ok
          { s with
            mode := mode
            registered := (s.registered \ oldH.toFinset) ∪ newH.toFinset }

/-- The set of handles whose descriptor's `mode` equals `m`, read off
the descriptor-to-handle table. -/
def modeHandleSet (s : MMState) (m : Option String) : Finset HotKey :=
  ((s.hotkeys.filter (fun p => p.1.mode = m)).map Prod.snd).toFinset

/-- The reachable states of the mode state machine: `main` constructs
the manager (`src/main.rs` line 240), immediately performs the startup
`activate_mode(&None)` (line 241), and thereafter every transition is a
call to `activate_mode` (line 275). -/
inductive Reachable (fromStr : String → Option Code) (bindings : List HotkeyBinding) :
    MMState → Prop
  | startup (s₀ s₁ : MMState) :
      ModeManager.new fromStr bindings = NewResult.ok s₀ →
      activateMode s₀ none = ActResult.ok s₁ →
      Reachable fromStr bindings s₁
  | step (s : MMState) (m : Option String) (s' : MMState) :
      Reachable fromStr bindings s →
      activateMode s m = ActResult.ok s' →
      Reachable fromStr bindings s'

/-! ## The event dispatcher (`src/main.rs` lines 248-279) -/

/-- One iteration of the event-loop closure on a received event with id
`eid`. The reverse lookup is
`hotkeys.iter().find(|(_, v)| v.id() == event.id).unwrap()` — a panic
(`none`) when no entry matches. On a hit, the command (if any) is
written to the shell session, then `internal_action` (if any) triggers
`activate_mode(...).unwrap()`. `idFn` models `HotKey::id()`. The result
is `some (written command, next state)` or `none` for a panic. -/
def dispatchStep (idFn : HotKey → Nat) (s : MMState) (eid : Nat) :
    Option (Option String × MMState) :=
  match s.hotkeys.find? (fun p => idFn p.2 = eid) with
  | none => none
  | some hit =>
    let written := hit.1.command
    match hit.1.internal_action with
    | none => some (written, s)
    | some target =>
      match activateMode s target with
      | ActResult.panicked => none
      | ActResult.ok s' => some (written, s')

/-- Structural facts tying `binding_map` and `hotkeys` together, true of
every pair of tables `ModeManager::new` builds and untouched by
`activate_mode` (which only changes `mode` and the OS set). -/
structure AccInv (bm : List (Option String × List HkmData))
    (hks : List (HkmData × HotKey)) : Prop where
  bmModes : ∀ kv ∈ bm, ∀ d ∈ kv.2, d.mode = kv.1
  bmLookup : ∀ kv ∈ bm, ∀ d ∈ kv.2,
    assocFind hks d = some (HotKey.new d.mod_keys d.vkey)
  hksVal : ∀ p ∈ hks, p.2 = HotKey.new p.1.mod_keys p.1.vkey
  hksInBm : ∀ p ∈ hks, ∃ kv ∈ bm, p.1 ∈ kv.2
  keysNodup : (bm.map Prod.fst).Nodup

/-- `StructInv` is `AccInv` on the tables of a state. -/
def StructInv (s : MMState) : Prop := AccInv s.binding_map s.hotkeys

/-- `containsSeg pat l` holds when `pat` occurs contiguously in `l`. -/
def containsSeg (pat : List Char) : List Char → Bool
  | [] => pat.isEmpty
  | c :: r => pat.isPrefixOf (c :: r) || containsSeg pat r

/-- The head of `l` (if any) refutes `p`. -/
def HeadNot (p : Char → Bool) : List Char → Prop
  | [] => True
  | c :: _ => p c = false

/-- A non-empty `text::ident()`-shaped character list. -/
def GoodIdentL : List Char → Prop
  | [] => False
  | c :: t => identStart c = true ∧ ∀ x ∈ t, identChar x = true

/-- A string that `text::ident()` consumes in full. -/
def GoodIdent (s : String) : Prop := GoodIdentL s.toList

instance (l : List Char) : Decidable (GoodIdentL l) :=
  match l with
  | [] => isFalse (fun h => h)
  | c :: t => inferInstanceAs (Decidable (identStart c = true ∧ ∀ x ∈ t, identChar x = true))

instance (s : String) : Decidable (GoodIdent s) :=
  inferInstanceAs (Decidable (GoodIdentL s.toList))

/-- A character the `command` parser's scan always consumes: not
whitespace, not `#`, not `;`. -/
def cmdChar (c : Char) : Bool := !c.isWhitespace && !(c = '#') && !(c = ';')

/-- A non-empty single-word command text. -/
def GoodCmd (s : String) : Prop := s.toList ≠ [] ∧ ∀ x ∈ s.toList, cmdChar x = true

instance (s : String) : Decidable (GoodCmd s) :=
  inferInstanceAs (Decidable (s.toList ≠ [] ∧ ∀ x ∈ s.toList, cmdChar x = true))

/-! ## Concrete objects used by witnesses and counterexamples -/

/-- A `Code::from_str` instantiation that recognizes nothing: the
canonical table alone decides. -/
def fromStr0 : String → Option Code := fun _ => none

def bW : HotkeyBinding :=
  { mode := none, keys := ["alt", "h"], command := some "echo",
    internal_action := none, process_name := none }

def dW : HkmData :=
  { mode := none, mod_keys := some Modifiers.ALT, vkey := Code.KeyH,
    command := some "echo", internal_action := none, process_name := none }

def hkW : HotKey := { mods := some Modifiers.ALT, key := Code.KeyH }

def s0W : MMState :=
  { mode := none, binding_map := [(none, [dW])], hotkeys := [(dW, hkW)], registered := ∅ }

def s1W : MMState :=
  { mode := none, binding_map := [(none, [dW])], hotkeys := [(dW, hkW)],
    registered := {hkW} }

def bC1 : HotkeyBinding :=
  { mode := none, keys := ["alt", "h"], command := some "echo 1",
    internal_action := none, process_name := none }

def bC2 : HotkeyBinding :=
  { mode := none, keys := ["alt", "h"], command := some "echo 2",
    internal_action := none, process_name := none }

def dC1 : HkmData :=
  { mode := none, mod_keys := some Modifiers.ALT, vkey := Code.KeyH,
    command := some "echo 1", internal_action := none, process_name := none }

def dC2 : HkmData :=
  { mode := none, mod_keys := some Modifiers.ALT, vkey := Code.KeyH,
    command := some "echo 2", internal_action := none, process_name := none }

def bBad : HotkeyBinding :=
  { mode := none, keys := ["alt", "zzz"], command := some "x",
    internal_action := none, process_name := none }

def bEmptyW : HotkeyBinding :=
  { mode := none, keys := [], command := some "x",
    internal_action := none, process_name := none }

def srcC6 : String := ".shell cmd\nalt + n [\nFirefox : echo hi\n]\nalt + h : focus"

def docC6 : Whkdrc :=
  { shell := Shell.cmd
    app_bindings :=
      [ (["alt", "n"],
         [{ mode := none, keys := ["alt", "n"], command := some "echo hi",
            internal_action := none, process_name := some "Firefox" }]) ]
    bindings :=
      [{ mode := none, keys := ["alt", "h"], command := some "focus",
         internal_action := none, process_name := none }] }

def dC6 : HkmData :=
  { mode := none, mod_keys := some Modifiers.ALT, vkey := Code.KeyH,
    command := some "focus", internal_action := none, process_name := none }

def sC6 : MMState :=
  { mode := none, binding_map := [(none, [dC6])],
    hotkeys := [(dC6, { mods := some Modifiers.ALT, key := Code.KeyH })], registered := ∅ }

def srcC5 : String := ".shell cmd\nalt + h : x"

def docC5 : Whkdrc :=
  { shell := Shell.cmd
    app_bindings := []
    bindings :=
      [{ mode := none, keys := ["alt", "h"], command := some "x",
         internal_action := none, process_name := none }] }

def mmSrc : String :=
  ".shell pwsh\nalt + h ; window\nwindow > esc ; default\nwindow > m : echo \"Hello\"\nwindow > c : echo \"Test\" ; default"

def mmDoc : Whkdrc :=
  { shell := Shell.pwsh
    app_bindings := []
    bindings :=
      [ { mode := none, keys := ["alt", "h"], command := none,
          internal_action := some (some "window"), process_name := none }
      , { mode := some "window", keys := ["esc"], command := none,
          internal_action := some none, process_name := none }
      , { mode := some "window", keys := ["m"], command := some "echo \"Hello\"",
          internal_action := none, process_name := none }
      , { mode := some "window", keys := ["c"], command := some "echo \"Test\"",
          internal_action := some none, process_name := none } ] }

/-! ## Lemmas: association lists -/

theorem assocFind_mem [DecidableEq κ] {l : List (κ × ν)} {k : κ} {v : ν}
    (h : assocFind l k = some v) : (k, v) ∈ l := by
  induction l with
  | nil => simp [assocFind] at h
  | cons p rest ih =>
    obtain ⟨k', v'⟩ := p
    by_cases hk : k' = k
    · subst hk
      simp [assocFind] at h
      subst h
      exact List.mem_cons_self _ _
    · simp [assocFind, hk] at h
      exact List.mem_cons_of_mem _ (ih h)

theorem assocFind_isSome_of_mem [DecidableEq κ] {l : List (κ × ν)} {k : κ} {v : ν}
    (h : (k, v) ∈ l) : ∃ w, assocFind l k = some w := by
  induction l with
  | nil => simp at h
  | cons p rest ih =>
    obtain ⟨k', v'⟩ := p
    by_cases hk : k' = k
    · exact ⟨v', by simp [assocFind, hk]⟩
    · rcases List.mem_cons.mp h with h' | h'
      · exact absurd (congrArg Prod.fst h').symm hk
      · simpa [assocFind, hk] using ih h'

theorem assocFind_of_mem_nodup [DecidableEq κ] {l : List (κ × ν)} {k : κ} {v : ν}
    (hnd : (l.map Prod.fst).Nodup) (h : (k, v) ∈ l) : assocFind l k = some v := by
  induction l with
  | nil => simp at h
  | cons p rest ih =>
    obtain ⟨k', v'⟩ := p
    simp only [List.map_cons, List.nodup_cons] at hnd
    rcases List.mem_cons.mp h with h' | h'
    · obtain ⟨hk, hv⟩ := Prod.ext_iff.mp h'
      subst hk
      subst hv
      simp [assocFind]
    · by_cases hk : k' = k
      · subst hk
        exact absurd (List.mem_map_of_mem Prod.fst h') hnd.1
      · simpa [assocFind, hk] using ih hnd.2 h'

theorem assocFind_insertAssoc_self [DecidableEq κ] (l : List (κ × ν)) (k : κ) (v : ν) :
    assocFind (insertAssoc l k v) k = some v := by
  induction l with
  | nil => simp [insertAssoc, assocFind]
  | cons p rest ih =>
    obtain ⟨k', v'⟩ := p
    by_cases hk : k' = k
    · simp [insertAssoc, hk, assocFind]
    · simp [insertAssoc, hk, assocFind, ih]

theorem assocFind_insertAssoc_ne [DecidableEq κ] (l : List (κ × ν)) {k k'' : κ} (v : ν)
    (h : k'' ≠ k) : assocFind (insertAssoc l k v) k'' = assocFind l k'' := by
  have hne : ¬ (k = k'') := fun hh => h (Eq.symm hh)
  induction l with
  | nil => simp [insertAssoc, assocFind, hne]
  | cons p rest ih =>
    obtain ⟨k', v'⟩ := p
    by_cases hk : k' = k
    · subst hk
      simp [insertAssoc, assocFind, hne, fun hh => h (Eq.symm hh)]
    · by_cases hk2 : k' = k''
      · subst hk2
        simp [insertAssoc, hk, assocFind]
      · simp [insertAssoc, hk, assocFind, hk2, ih]

theorem mem_insertAssoc [DecidableEq κ] {l : List (κ × ν)} {k : κ} {v : ν} {p : κ × ν}
    (h : p ∈ insertAssoc l k v) : p = (k, v) ∨ p ∈ l := by
  induction l with
  | nil => simpa [insertAssoc] using h
  | cons q rest ih =>
    obtain ⟨k', v'⟩ := q
    by_cases hk : k' = k
    · simp only [insertAssoc, hk, if_pos rfl] at h
      rcases List.mem_cons.mp h with h' | h'
      · exact Or.inl h'
      · exact Or.inr (List.mem_cons_of_mem _ h')
    · simp only [insertAssoc, if_neg hk] at h
      rcases List.mem_cons.mp h with h' | h'
      · exact Or.inr (h' ▸ List.mem_cons_self _ _)
      · rcases ih h' with h'' | h''
        · exact Or.inl h''
        · exact Or.inr (List.mem_cons_of_mem _ h'')

/-! ## Lemmas: `pushEntry` -/

theorem pushEntry_mem_char {bm : List (Option String × List HkmData)}
    {k : Option String} {d : HkmData} {kv : Option String × List HkmData} {x : HkmData}
    (hkv : kv ∈ pushEntry bm k d) (hx : x ∈ kv.2) :
    (∃ kv₀ ∈ bm, kv₀.1 = kv.1 ∧ x ∈ kv₀.2) ∨ (kv.1 = k ∧ x = d) := by
  induction bm with
  | nil =>
    simp only [pushEntry, List.mem_singleton] at hkv
    subst hkv
    simp only [List.mem_singleton] at hx
    exact Or.inr ⟨rfl, hx⟩
  | cons q rest ih =>
    obtain ⟨k', v⟩ := q
    by_cases hk : k' = k
    · simp only [pushEntry, if_pos hk] at hkv
      rcases List.mem_cons.mp hkv with h' | h'
      · subst h'
        rcases List.mem_append.mp hx with h'' | h''
        · exact Or.inl ⟨(k', v), List.mem_cons_self _ _, rfl, h''⟩
        · simp only [List.mem_singleton] at h''
          exact Or.inr ⟨hk, h''⟩
      · exact Or.inl ⟨kv, List.mem_cons_of_mem _ h', rfl, hx⟩
    · simp only [pushEntry, if_neg hk] at hkv
      rcases List.mem_cons.mp hkv with h' | h'
      · subst h'
        exact Or.inl ⟨(k', v), List.mem_cons_self _ _, rfl, hx⟩
      · rcases ih h' with ⟨kv₀, hmem, hfst, hx0⟩ | h''
        · exact Or.inl ⟨kv₀, List.mem_cons_of_mem _ hmem, hfst, hx0⟩
        · exact Or.inr h''

theorem pushEntry_self (bm : List (Option String × List HkmData))
    (k : Option String) (d : HkmData) :
    ∃ kv ∈ pushEntry bm k d, kv.1 = k ∧ d ∈ kv.2 := by
  induction bm with
  | nil => exact ⟨(k, [d]), by simp [pushEntry]⟩
  | cons q rest ih =>
    obtain ⟨k', v⟩ := q
    by_cases hk : k' = k
    · exact ⟨(k', v ++ [d]), by simp [pushEntry, hk]⟩
    · obtain ⟨kv, hmem, hfst, hd⟩ := ih
      exact ⟨kv, by simp [pushEntry, hk, List.mem_cons_of_mem, hmem], hfst, hd⟩

theorem pushEntry_mono {bm : List (Option String × List HkmData)}
    {kv : Option String × List HkmData} (k : Option String) (d : HkmData)
    (h : kv ∈ bm) : ∃ kv' ∈ pushEntry bm k d, kv'.1 = kv.1 ∧ ∀ x ∈ kv.2, x ∈ kv'.2 := by
  induction bm with
  | nil => simp at h
  | cons q rest ih =>
    obtain ⟨k', v⟩ := q
    rcases List.mem_cons.mp h with h' | h'
    · subst h'
      by_cases hk : k' = k
      · refine ⟨(k', v ++ [d]), by simp [pushEntry, hk], rfl, ?_⟩
        intro x hx
        exact List.mem_append.mpr (Or.inl hx)
      · exact ⟨(k', v), by simp [pushEntry, hk], rfl, fun x hx => hx⟩
    · by_cases hk : k' = k
      · exact ⟨kv, by simp [pushEntry, hk, List.mem_cons_of_mem, h'], rfl, fun x hx => hx⟩
      · obtain ⟨kv', hmem, hfst, hsub⟩ := ih h'
        exact ⟨kv', by simp [pushEntry, hk, List.mem_cons_of_mem, hmem], hfst, hsub⟩

theorem pushEntry_map_fst (bm : List (Option String × List HkmData))
    (k : Option String) (d : HkmData) :
    (pushEntry bm k d).map Prod.fst = bm.map Prod.fst ∨
      ((pushEntry bm k d).map Prod.fst = bm.map Prod.fst ++ [k] ∧ k ∉ bm.map Prod.fst) := by
  induction bm with
  | nil => exact Or.inr (by simp [pushEntry])
  | cons q rest ih =>
    obtain ⟨k', v⟩ := q
    by_cases hk : k' = k
    · exact Or.inl (by simp [pushEntry, hk])
    · rcases ih with h | ⟨h1, h2⟩
      · exact Or.inl (by simp [pushEntry, hk, h])
      · refine Or.inr ⟨by simp [pushEntry, hk, h1], ?_⟩
        simp only [List.map_cons, List.mem_cons]
        rintro (h3 | h3)
        · exact hk h3.symm
        · exact h2 h3

theorem pushEntry_nodup {bm : List (Option String × List HkmData)}
    (k : Option String) (d : HkmData) (h : (bm.map Prod.fst).Nodup) :
    ((pushEntry bm k d).map Prod.fst).Nodup := by
  rcases pushEntry_map_fst bm k d with heq | ⟨heq, hnot⟩
  · rw [heq]; exact h
  · rw [heq]
    rw [List.nodup_append]
    exact ⟨h, List.nodup_singleton k, by simpa [List.disjoint_right] using hnot⟩

/-! ## The structural invariant of `ModeManager::new`'s tables -/

theorem accInv_nil : AccInv [] [] :=
  ⟨by simp, by simp, by simp, by simp, by simp⟩

theorem accInv_step {bm : List (Option String × List HkmData)}
    {hks : List (HkmData × HotKey)} (h : AccInv bm hks) (d : HkmData) :
    AccInv (pushEntry bm d.mode d)
      (insertAssoc hks d (HotKey.new d.mod_keys d.vkey)) := by
  constructor
  · intro kv hkv x hx
    rcases pushEntry_mem_char hkv hx with ⟨kv₀, hmem, hfst, hx0⟩ | ⟨hfst, hx0⟩
    · rw [h.bmModes kv₀ hmem x hx0, hfst]
    · rw [hx0, hfst]
  · intro kv hkv x hx
    by_cases hxd : x = d
    · subst hxd
      exact assocFind_insertAssoc_self hks x (HotKey.new x.mod_keys x.vkey)
    · rcases pushEntry_mem_char hkv hx with ⟨kv₀, hmem, _, hx0⟩ | ⟨_, hx0⟩
      · rw [assocFind_insertAssoc_ne hks _ hxd]
        exact h.bmLookup kv₀ hmem x hx0
      · exact absurd hx0 hxd
  · intro p hp
    rcases mem_insertAssoc hp with h' | h'
    · subst h'; rfl
    · exact h.hksVal p h'
  · intro p hp
    rcases mem_insertAssoc hp with h' | h'
    · subst h'
      obtain ⟨kv, hmem, _, hd⟩ := pushEntry_self bm d.mode d
      exact ⟨kv, hmem, hd⟩
    · obtain ⟨kv, hmem, hin⟩ := h.hksInBm p h'
      obtain ⟨kv', hmem', _, hsub⟩ := pushEntry_mono d.mode d hmem
      exact ⟨kv', hmem', hsub p.1 hin⟩
  · exact pushEntry_nodup d.mode d h.keysNodup

theorem newGo_props (fromStr : String → Option Code) :
    ∀ (bs : List HotkeyBinding) (bm : List (Option String × List HkmData))
      (hks : List (HkmData × HotKey)) (s : MMState),
      AccInv bm hks → newGo fromStr bs bm hks = NewResult.ok s →
      StructInv s ∧ s.registered = ∅ ∧ s.mode = none := by
  intro bs
  induction bs with
  | nil =>
    intro bm hks s hinv h
    simp only [newGo, NewResult.ok.injEq] at h
    subst h
    exact ⟨hinv, rfl, rfl⟩
  | cons b rest ih =>
    intro bm hks s hinv h
    simp only [newGo] at h
    cases htf : tryFrom fromStr b with
    | panicked => rw [htf] at h; exact absurd h (by simp)
    | err => rw [htf] at h; exact absurd h (by simp)
    | ok data =>
      rw [htf] at h
      exact ih _ _ s (accInv_step hinv data) h

theorem new_props {fromStr : String → Option Code} {bs : List HotkeyBinding} {s : MMState}
    (h : ModeManager.new fromStr bs = NewResult.ok s) :
    StructInv s ∧ s.registered = ∅ ∧ s.mode = none :=
  newGo_props fromStr bs [] [] s accInv_nil h

/-! ## `activate_mode` under the structural invariant -/

theorem collectHandles_map {hks : List (HkmData × HotKey)} :
    ∀ {v : List HkmData},
      (∀ d ∈ v, assocFind hks d = some (HotKey.new d.mod_keys d.vkey)) →
      collectHandles hks v = some (v.map (fun d => HotKey.new d.mod_keys d.vkey)) := by
  intro v
  induction v with
  | nil => intro _; rfl
  | cons d rest ih =>
    intro hall
    simp only [collectHandles]
    rw [hall d (List.mem_cons_self _ _), ih (fun x hx => hall x (List.mem_cons_of_mem _ hx))]
    rfl

theorem collect_modeHandles {s : MMState} (hinv : StructInv s) (m : Option String) :
    collectHandles s.hotkeys ((assocFind s.binding_map m).getD []) =
      some (((assocFind s.binding_map m).getD []).map
        (fun d => HotKey.new d.mod_keys d.vkey)) ∧
    (((assocFind s.binding_map m).getD []).map
        (fun d => HotKey.new d.mod_keys d.vkey)).toFinset = modeHandleSet s m := by
  cases hfind : assocFind s.binding_map m with
  | none =>
    refine ⟨rfl, ?_⟩
    simp only [Option.getD_none, List.map_nil, List.toFinset_nil]
    symm
    rw [Finset.eq_empty_iff_forall_not_mem]
    intro x hx
    simp only [modeHandleSet, List.mem_toFinset, List.mem_map] at hx
    obtain ⟨p, hp, hpx⟩ := hx
    have hmode : p.1.mode = m := by
      have := (List.mem_filter.mp hp).2
      simpa using this
    obtain ⟨kv, hkv, hin⟩ := hinv.hksInBm p (List.mem_filter.mp hp).1
    have hfst : p.1.mode = kv.1 := hinv.bmModes kv hkv p.1 hin
    have hk1m : kv.1 = m := by rw [← hfst, hmode]
    have hkv' : (m, kv.2) ∈ s.binding_map := by rw [← hk1m]; exact hkv
    obtain ⟨w, hw⟩ := assocFind_isSome_of_mem hkv'
    rw [hw] at hfind
    exact Option.noConfusion hfind
  | some vec =>
    have hmem : (m, vec) ∈ s.binding_map := assocFind_mem hfind
    have hall : ∀ d ∈ vec, assocFind s.hotkeys d = some (HotKey.new d.mod_keys d.vkey) :=
      fun d hd => hinv.bmLookup (m, vec) hmem d hd
    refine ⟨by simpa using collectHandles_map hall, ?_⟩
    apply Finset.ext
    intro x
    simp only [Option.getD_some, List.mem_toFinset, List.mem_map, modeHandleSet,
      List.mem_filter, decide_eq_true_eq]
    constructor
    · rintro ⟨d, hd, rfl⟩
      refine ⟨(d, HotKey.new d.mod_keys d.vkey), ⟨?_, ?_⟩, rfl⟩
      · exact assocFind_mem (hall d hd)
      · exact hinv.bmModes (m, vec) hmem d hd
    · rintro ⟨p, ⟨hp, hpm⟩, rfl⟩
      obtain ⟨kv, hkv, hin⟩ := hinv.hksInBm p hp
      have hfst : kv.1 = m := by rw [← hinv.bmModes kv hkv p.1 hin, hpm]
      have : assocFind s.binding_map kv.1 = some kv.2 := by
        have hkv' : (kv.1, kv.2) ∈ s.binding_map := hkv
        exact assocFind_of_mem_nodup hinv.keysNodup hkv'
      rw [hfst, hfind] at this
      have hveq : vec = kv.2 := Option.some.inj this
      exact ⟨p.1, hveq ▸ hin, (hinv.hksVal p hp).symm⟩

/-- Under the structural invariant, `activate_mode` never panics and its
result is exactly: unregister the current mode's handle set, switch the
mode, register the target mode's handle set. -/
theorem activateMode_eq {s : MMState} (hinv : StructInv s) (m : Option String) :
    activateMode s m = ActResult.ok
      { s with
        mode := m
        registered := (s.registered \ modeHandleSet s s.mode) ∪ modeHandleSet s m } := by
  obtain ⟨hc1, he1⟩ := collect_modeHandles hinv s.mode
  obtain ⟨hc2, he2⟩ := collect_modeHandles hinv m
  simp only [activateMode, hc1, hc2, he1, he2]

theorem structInv_activate {s s' : MMState} {m : Option String}
    (hinv : StructInv s) (h : activateMode s m = ActResult.ok s') :
    StructInv s' ∧ s'.binding_map = s.binding_map ∧ s'.hotkeys = s.hotkeys ∧
      s'.mode = m ∧
      s'.registered = (s.registered \ modeHandleSet s s.mode) ∪ modeHandleSet s m := by
  rw [activateMode_eq hinv m] at h
  obtain rfl : s' = _ := by injection h with h'; exact h'.symm
  exact ⟨hinv, rfl, rfl, rfl, rfl⟩

/-- `modeHandleSet` only reads the tables, so it is invariant along
transitions. -/
theorem modeHandleSet_congr {s s' : MMState} (h : s'.hotkeys = s.hotkeys) (m : Option String) :
    modeHandleSet s' m = modeHandleSet s m := by
  simp only [modeHandleSet, h]

/-- The central invariant: every reachable state of the mode state
machine registers exactly the handles of the current mode's descriptors. -/
theorem reachable_inv {fromStr : String → Option Code} {bindings : List HotkeyBinding}
    {s : MMState} (h : Reachable fromStr bindings s) :
    StructInv s ∧ s.registered = modeHandleSet s s.mode := by
  induction h with
  | startup s₀ s₁ hnew hact =>
    obtain ⟨hinv, hreg, hmode⟩ := new_props hnew
    obtain ⟨hinv', hbm, hhk, hmode', hreg'⟩ := structInv_activate hinv hact
    refine ⟨hinv', ?_⟩
    rw [hreg', hreg, hmode', modeHandleSet_congr hhk, Finset.empty_sdiff,
      Finset.empty_union]
  | step s m s' _ hact ih =>
    obtain ⟨hinv, hreg⟩ := ih
    obtain ⟨hinv', hbm, hhk, hmode', hreg'⟩ := structInv_activate hinv hact
    refine ⟨hinv', ?_⟩
    rw [hreg', hreg, hmode', modeHandleSet_congr hhk, Finset.sdiff_self,
      Finset.empty_union]

/-! ## Lemmas: the normalizer -/

/-- `HkmData::try_from` has no `Err` exit: every failure in its body is
an `unwrap()` panic; the declared `HkError` type is never produced. -/
theorem tryFrom_ne_err (fromStr : String → Option Code) (b : HotkeyBinding) :
    tryFrom fromStr b ≠ TfResult.err := by
  unfold tryFrom
  rcases hsl : splitLast b.keys with _ | ⟨t, ms⟩
  · simp
  · rcases hkc : keyCodeFromString fromStr t with _ | c <;> simp [hkc]

/-- `split_last` succeeds on every non-empty key sequence. -/
theorem splitLast_isSome {keys : List String} (h : keys ≠ []) :
    (splitLast keys).isSome = true := by
  induction keys with
  | nil => exact absurd rfl h
  | cons a rest ih =>
    cases rest with
    | nil => rfl
    | cons b rest' =>
      have := ih (by simp)
      simp only [splitLast]
      cases hsl : splitLast (b :: rest') with
      | none => rw [hsl] at this; exact absurd this (by simp)
      | some tm => simp

/-- Normalization preserves the payload fields verbatim. -/
theorem tryFrom_ok_fields {fromStr : String → Option Code} {b : HotkeyBinding} {d : HkmData}
    (h : tryFrom fromStr b = TfResult.ok d) :
    d.mode = b.mode ∧ d.command = b.command ∧ d.internal_action = b.internal_action ∧
      d.process_name = b.process_name := by
  unfold tryFrom at h
  rcases hsl : splitLast b.keys with _ | ⟨t, ms⟩ <;> rw [hsl] at h
  · exact absurd h (by simp)
  · rcases hkc : keyCodeFromString fromStr t with _ | c <;> simp only [hkc] at h
    · exact absurd h (by simp)
    · simp only [TfResult.ok.injEq] at h
      subst h
      exact ⟨rfl, rfl, rfl, rfl⟩

/-- If any binding in the list makes `try_from` panic, the whole
`ModeManager::new` panics (the loop propagates the first failure and no
later binding rescues it; an `Err` exit never competes since `try_from`
never returns one). -/
theorem newGo_panics (fromStr : String → Option Code) {b : HotkeyBinding} :
    ∀ (bs : List HotkeyBinding) (bm : List (Option String × List HkmData))
      (hks : List (HkmData × HotKey)),
      b ∈ bs → tryFrom fromStr b = TfResult.panicked →
      newGo fromStr bs bm hks = NewResult.panicked := by
  intro bs
  induction bs with
  | nil => intro _ _ h _; simp at h
  | cons b₀ rest ih =>
    intro bm hks hmem hpan
    rcases List.mem_cons.mp hmem with h' | h'
    · subst h'
      simp only [newGo, hpan]
    · simp only [newGo]
      cases htf : tryFrom fromStr b₀ with
      | panicked => rfl
      | err => exact absurd htf (tryFrom_ne_err fromStr b₀)
      | ok data => exact ih _ _ h' hpan

/-- Every descriptor in the built `hotkeys` table is the normalization
of one of the input bindings. -/
theorem newGo_hks_from (fromStr : String → Option Code) :
    ∀ (bs : List HotkeyBinding) (bm : List (Option String × List HkmData))
      (hks : List (HkmData × HotKey)) (s : MMState),
      newGo fromStr bs bm hks = NewResult.ok s →
      ∀ p ∈ s.hotkeys, p ∈ hks ∨ ∃ b ∈ bs, tryFrom fromStr b = TfResult.ok p.1 := by
  intro bs
  induction bs with
  | nil =>
    intro bm hks s h p hp
    simp only [newGo, NewResult.ok.injEq] at h
    subst h
    exact Or.inl hp
  | cons b₀ rest ih =>
    intro bm hks s h p hp
    simp only [newGo] at h
    cases htf : tryFrom fromStr b₀ with
    | panicked => rw [htf] at h; exact absurd h (by simp)
    | err => rw [htf] at h; exact absurd h (by simp)
    | ok data =>
      rw [htf] at h
      rcases ih _ _ s h p hp with h' | ⟨b, hb, hbok⟩
      · rcases mem_insertAssoc h' with h'' | h''
        · refine Or.inr ⟨b₀, List.mem_cons_self _ _, ?_⟩
          rw [htf, h'']
        · exact Or.inl h''
      · exact Or.inr ⟨b, List.mem_cons_of_mem _ hb, hbok⟩

/-! ## Lemmas: parser plumbing -/

theorem seqP_eq_some {p : PC α} {q : PC β} {l r : List Char} {x : α × β}
    (h : seqP p q l = some (x, r)) :
    ∃ r₁, p l = some (x.1, r₁) ∧ q r₁ = some (x.2, r) := by
  unfold seqP at h
  rw [Option.bind_eq_some] at h
  obtain ⟨ar, hp, hmap⟩ := h
  rw [Option.map_eq_some'] at hmap
  obtain ⟨br, hq, heq⟩ := hmap
  obtain ⟨a, r₁⟩ := ar
  obtain ⟨b, r₂⟩ := br
  simp only [Prod.mk.injEq] at heq
  obtain ⟨hx, hr⟩ := heq
  subst hx
  subst hr
  exact ⟨r₁, hp, hq⟩

theorem mapP_eq_some {f : α → β} {p : PC α} {l r : List Char} {b : β}
    (h : mapP f p l = some (b, r)) : ∃ a, p l = some (a, r) ∧ b = f a := by
  unfold mapP at h
  rw [Option.map_eq_some'] at h
  obtain ⟨ar, hp, heq⟩ := h
  obtain ⟨a, r₁⟩ := ar
  simp only [Prod.mk.injEq] at heq
  obtain ⟨hb, hr⟩ := heq
  subst hb
  subst hr
  exact ⟨a, hp, rfl⟩

theorem thenIgnoreP_eq_some {p : PC α} {q : PC β} {l r : List Char} {a : α}
    (h : thenIgnoreP p q l = some (a, r)) :
    ∃ r₁ b, p l = some (a, r₁) ∧ q r₁ = some (b, r) := by
  obtain ⟨x, hx, hax⟩ := mapP_eq_some h
  obtain ⟨r₁, hp, hq⟩ := seqP_eq_some hx
  exact ⟨r₁, x.2, hax ▸ hp, hq⟩

theorem ignoreThenP_eq_some {p : PC α} {q : PC β} {l r : List Char} {b : β}
    (h : ignoreThenP p q l = some (b, r)) :
    ∃ r₁ a, p l = some (a, r₁) ∧ q r₁ = some (b, r) := by
  obtain ⟨x, hx, hbx⟩ := mapP_eq_some h
  obtain ⟨r₁, hp, hq⟩ := seqP_eq_some hx
  exact ⟨r₁, x.1, hp, hbx ▸ hq⟩

theorem wsP_eq_some {l r : List Char} {u : Unit} (h : wsP l = some (u, r)) :
    r = l.dropWhile Char.isWhitespace := by
  unfold wsP at h
  simp only [Option.some.injEq, Prod.mk.injEq] at h
  exact h.2.symm

theorem justSP_eq_some {t : String} {l r : List Char} {a : String}
    (h : justSP t l = some (a, r)) : a = t ∧ l = t.toList ++ r := by
  unfold justSP at h
  by_cases hc : l.take t.toList.length = t.toList
  · rw [if_pos hc] at h
    simp only [Option.some.injEq, Prod.mk.injEq] at h
    obtain ⟨ha, hr⟩ := h
    refine ⟨ha.symm, ?_⟩
    conv_lhs => rw [← List.take_append_drop t.toList.length l]
    rw [hc, hr]
  · rw [if_neg hc] at h
    exact absurd h (by simp)

/-- Every element a fuel-bounded repetition collects satisfies any
property satisfied by all outputs of the repeated parser. -/
theorem manyGo_elem {p : PC α} {Q : α → Prop}
    (hp : ∀ l a r, p l = some (a, r) → Q a) :
    ∀ (fuel : Nat) (l : List Char), ∀ a ∈ (manyGo p fuel l).1, Q a := by
  intro fuel
  induction fuel with
  | zero => intro l a ha; simp [manyGo] at ha
  | succ n ih =>
    intro l a ha
    simp only [manyGo] at ha
    split at ha
    · simp at ha
    · rename_i b r hpl
      split at ha
      · simp only [List.mem_cons] at ha
        rcases ha with h' | h'
        · exact h' ▸ hp l b r hpl
        · exact ih r a h'
      · simp at ha

theorem atLeastP_elem {n : Nat} {p : PC α} {Q : α → Prop}
    (hp : ∀ l a r, p l = some (a, r) → Q a)
    {l r : List Char} {as : List α} (h : atLeastP n p l = some (as, r)) :
    ∀ a ∈ as, Q a := by
  unfold atLeastP manyP at h
  by_cases hn : n ≤ (manyGo p (l.length + 1) l).1.length
  · simp only [if_pos hn, Option.some.injEq, Prod.mk.injEq] at h
    intro a ha
    exact manyGo_elem hp (l.length + 1) l a (h.1 ▸ ha)
  · simp only [if_neg hn] at h
    exact absurd h (by simp)

/-- Outputs of the comment-padded, whitespace-padded direct-binding
parser are always `mkDirect` images, hence carry `process_name = none`. -/
theorem directItem_out {l r : List Char} {b : HotkeyBinding}
    (h : (paddedByCommentsP (paddedP (mapP mkDirect bindingP))) l = some (b, r)) :
    b.process_name = none := by
  obtain ⟨r₁, u₁, hin, _⟩ := thenIgnoreP_eq_some h
  obtain ⟨r₂, u₂, _, hpad⟩ := ignoreThenP_eq_some hin
  obtain ⟨r₃, u₃, _, hpad2⟩ := ignoreThenP_eq_some hpad
  obtain ⟨r₄, u₄, hmap, _⟩ := thenIgnoreP_eq_some hpad2
  obtain ⟨x, _, hbx⟩ := mapP_eq_some hmap
  rw [hbx]
  rfl

/-- Every direct binding of a successfully parsed document has
`process_name = none`: the dispatcher-visible binding set never contains
a process filter. -/
theorem parse_bindings_no_filter {src : String} {doc : Whkdrc}
    (h : parseWhkdrc src = some doc) : ∀ b ∈ doc.bindings, b.process_name = none := by
  unfold parseWhkdrc at h
  rcases hrun : whkdrcP src.toList with _ | ⟨d, r⟩ <;> rw [hrun] at h
  · exact absurd h (by simp)
  · simp only [Option.map_some', Option.some.injEq] at h
    subst h
    obtain ⟨x, hx, hdx⟩ := mapP_eq_some hrun
    obtain ⟨r₂, hsh, hdir⟩ := seqP_eq_some hx
    intro b hb
    have hbx : b ∈ x.2 := by
      rw [hdx] at hb
      exact hb
    exact atLeastP_elem (fun l a r h' => directItem_out h') hdir b hbx

theorem isPrefixOf_append (pat l2 : List Char) : pat.isPrefixOf (pat ++ l2) = true := by
  induction pat with
  | nil => cases l2 <;> rfl
  | cons c p ih => simp [List.isPrefixOf, ih]

theorem containsSeg_of_append (pat l1 l2 : List Char) (hpat : pat ≠ []) :
    containsSeg pat (l1 ++ pat ++ l2) = true := by
  induction l1 with
  | nil =>
    rcases hp : pat ++ l2 with _ | ⟨c, r⟩
    · rcases List.append_eq_nil.mp hp with ⟨h1, _⟩
      exact absurd h1 hpat
    · simp only [List.nil_append, containsSeg, hp]
      rw [← hp, isPrefixOf_append]
      simp
  | cons c r ih =>
    simp only [List.cons_append, containsSeg]
    rw [Bool.or_eq_true]
    exact Or.inr ih

theorem exactlyOneP_eq_some {p : PC α} {l r : List Char} {as : List α}
    (h : exactlyOneP p l = some (as, r)) : ∃ a, p l = some (a, r) ∧ as = [a] := by
  unfold exactlyOneP at h
  rw [Option.map_eq_some'] at h
  obtain ⟨ar, hp, heq⟩ := h
  obtain ⟨a, r₁⟩ := ar
  simp only [Prod.mk.injEq] at heq
  obtain ⟨has, hr⟩ := heq
  subst has
  subst hr
  exact ⟨a, hp, rfl⟩

/-- A document can only parse when the literal `.shell` occurs in it:
the shell directive is mandatory. -/
theorem parse_requires_shell {src : String} {doc : Whkdrc}
    (h : parseWhkdrc src = some doc) :
    containsSeg (".shell".toList) src.toList = true := by
  unfold parseWhkdrc at h
  rcases hrun : whkdrcP src.toList with _ | ⟨d, r⟩ <;> rw [hrun] at h
  · exact absurd h (by simp)
  · obtain ⟨x, hx, _⟩ := mapP_eq_some hrun
    obtain ⟨r₂, hsh2, _⟩ := seqP_eq_some hx
    obtain ⟨r₃, hshell, _⟩ := seqP_eq_some hsh2
    obtain ⟨ss, hone, _⟩ := mapP_eq_some hshell
    obtain ⟨a, hitem, _⟩ := exactlyOneP_eq_some hone
    obtain ⟨r₄, w, hpad, _⟩ := ignoreThenP_eq_some hitem
    obtain ⟨r₅, w₂, hws, hthen⟩ := ignoreThenP_eq_some hpad
    obtain ⟨r₆, w₃, hjust, _⟩ := thenIgnoreP_eq_some hthen
    obtain ⟨_, hsplit⟩ := justSP_eq_some hjust
    have hr₅ : r₅ = src.toList.dropWhile Char.isWhitespace := wsP_eq_some hws
    have hsrc : src.toList =
        src.toList.takeWhile Char.isWhitespace ++ (".shell".toList ++ r₆) := by
      conv_lhs => rw [← List.takeWhile_append_dropWhile (p := Char.isWhitespace) (l := src.toList)]
      rw [← hr₅, hsplit]
    rw [hsrc, ← List.append_assoc]
    exact containsSeg_of_append (".shell".toList)
      (src.toList.takeWhile Char.isWhitespace) r₆ (by decide)

/-! ## Lemmas: running the binding grammar on well-formed fragments -/

theorem mk_toList (s : String) : String.mk s.toList = s := by
  cases s
  rfl

theorem identStart_not_ws {c : Char} (h : identStart c = true) : c.isWhitespace = false := by
  by_contra hws
  rw [Bool.not_eq_false] at hws
  have h4 : ((c = ' ' ∨ c = '\t') ∨ c = '\r') ∨ c = '\n' := by
    simpa [Char.isWhitespace] using hws
  rcases h4 with ((rfl | rfl) | rfl) | rfl <;> exact absurd h (by decide)

theorem cmdChar_props {c : Char} (h : cmdChar c = true) :
    c.isWhitespace = false ∧ c ≠ '#' ∧ c ≠ ';' ∧ c ≠ '\n' ∧ c ≠ '\r' := by
  simp only [cmdChar, Bool.and_eq_true, Bool.not_eq_true', decide_eq_false_iff_not] at h
  obtain ⟨⟨hws, h1⟩, h2⟩ := h
  refine ⟨hws, h1, h2, ?_, ?_⟩
  · rintro rfl
    exact absurd hws (by decide)
  · rintro rfl
    exact absurd hws (by decide)

theorem goodIdent_cons {s : String} (h : GoodIdent s) :
    ∃ c t, s.toList = c :: t ∧ identStart c = true ∧ ∀ x ∈ t, identChar x = true := by
  unfold GoodIdent at h
  rcases hs : s.toList with _ | ⟨c, t⟩
  · rw [hs] at h
    exact absurd h (fun h' => h')
  · rw [hs] at h
    exact ⟨c, t, rfl, h.1, h.2⟩

theorem goodCmd_cons {s : String} (h : GoodCmd s) :
    ∃ c t, s.toList = c :: t ∧ cmdChar c = true ∧ ∀ x ∈ t, cmdChar x = true := by
  obtain ⟨hne, hall⟩ := h
  rcases hs : s.toList with _ | ⟨c, t⟩
  · exact absurd hs hne
  · rw [hs] at hall
    exact ⟨c, t, rfl, hall c (List.mem_cons_self _ _),
      fun x hx => hall x (List.mem_cons_of_mem _ hx)⟩

theorem takeWhile_all_append {p : Char → Bool} :
    ∀ {t rest : List Char}, (∀ c ∈ t, p c = true) → HeadNot p rest →
      (t ++ rest).takeWhile p = t ∧ (t ++ rest).dropWhile p = rest := by
  intro t
  induction t with
  | nil =>
    intro rest _ h2
    cases rest with
    | nil => exact ⟨rfl, rfl⟩
    | cons c r =>
      unfold HeadNot at h2
      constructor
      · simp [List.takeWhile_cons, h2]
      · simp [List.dropWhile_cons, h2]
  | cons a t' ih =>
    intro rest h1 h2
    have hpa : p a = true := h1 a (List.mem_cons_self _ _)
    obtain ⟨ht, hd⟩ := ih (fun c hc => h1 c (List.mem_cons_of_mem _ hc)) h2
    constructor
    · simp [List.takeWhile_cons, hpa, ht]
    · simp [List.dropWhile_cons, hpa, hd]

theorem dropWhile_headNot {p : Char → Bool} {l : List Char} (h : HeadNot p l) :
    l.dropWhile p = l := by
  cases l with
  | nil => rfl
  | cons c r =>
    unfold HeadNot at h
    simp [List.dropWhile_cons, h]

theorem dropWhile_ws_sp (l : List Char) :
    (' ' :: l).dropWhile Char.isWhitespace = l.dropWhile Char.isWhitespace := by
  simp [List.dropWhile_cons]

theorem headNot_cons {p : Char → Bool} {c : Char} (h : p c = false) (l : List Char) :
    HeadNot p (c :: l) := h

/-! Forward computation helpers for the combinators. -/

theorem mapP_comp {f : α → β} {p : PC α} {l r : List Char} {a : α}
    (h : p l = some (a, r)) : mapP f p l = some (f a, r) := by
  simp [mapP, h]

theorem mapP_none {f : α → β} {p : PC α} {l : List Char}
    (h : p l = none) : mapP f p l = none := by
  simp [mapP, h]

theorem seqP_comp {p : PC α} {q : PC β} {l r₁ r₂ : List Char} {a : α} {b : β}
    (hp : p l = some (a, r₁)) (hq : q r₁ = some (b, r₂)) :
    seqP p q l = some ((a, b), r₂) := by
  simp [seqP, hp, hq]

theorem seqP_none_fst {p : PC α} {q : PC β} {l : List Char}
    (hp : p l = none) : seqP p q l = none := by
  simp [seqP, hp]

theorem seqP_none_snd {p : PC α} {q : PC β} {l r₁ : List Char} {a : α}
    (hp : p l = some (a, r₁)) (hq : q r₁ = none) : seqP p q l = none := by
  simp [seqP, hp, hq]

theorem thenIgnoreP_comp {p : PC α} {q : PC β} {l r₁ r₂ : List Char} {a : α} {b : β}
    (hp : p l = some (a, r₁)) (hq : q r₁ = some (b, r₂)) :
    thenIgnoreP p q l = some (a, r₂) :=
  mapP_comp (seqP_comp hp hq)

theorem thenIgnoreP_none_fst {p : PC α} {q : PC β} {l : List Char}
    (hp : p l = none) : thenIgnoreP p q l = none :=
  mapP_none (seqP_none_fst hp)

theorem thenIgnoreP_none_snd {p : PC α} {q : PC β} {l r₁ : List Char} {a : α}
    (hp : p l = some (a, r₁)) (hq : q r₁ = none) : thenIgnoreP p q l = none :=
  mapP_none (seqP_none_snd hp hq)

theorem ignoreThenP_comp {p : PC α} {q : PC β} {l r₁ r₂ : List Char} {a : α} {b : β}
    (hp : p l = some (a, r₁)) (hq : q r₁ = some (b, r₂)) :
    ignoreThenP p q l = some (b, r₂) :=
  mapP_comp (seqP_comp hp hq)

theorem ignoreThenP_none_fst {p : PC α} {q : PC β} {l : List Char}
    (hp : p l = none) : ignoreThenP p q l = none :=
  mapP_none (seqP_none_fst hp)

theorem ignoreThenP_none_snd {p : PC α} {q : PC β} {l r₁ : List Char} {a : α}
    (hp : p l = some (a, r₁)) (hq : q r₁ = none) : ignoreThenP p q l = none :=
  mapP_none (seqP_none_snd hp hq)

theorem ignoredP_comp {p : PC α} {l r : List Char} {a : α}
    (h : p l = some (a, r)) : ignoredP p l = some ((), r) :=
  mapP_comp h

theorem ignoredP_none {p : PC α} {l : List Char} (h : p l = none) : ignoredP p l = none :=
  mapP_none h

theorem wsP_run (l : List Char) : wsP l = some ((), l.dropWhile Char.isWhitespace) := rfl

theorem paddedP_comp {p : PC α} {l r : List Char} {a : α}
    (h : p (l.dropWhile Char.isWhitespace) = some (a, r)) :
    paddedP p l = some (a, r.dropWhile Char.isWhitespace) :=
  ignoreThenP_comp (wsP_run l) (thenIgnoreP_comp h (wsP_run r))

theorem paddedP_none {p : PC α} {l : List Char}
    (h : p (l.dropWhile Char.isWhitespace) = none) : paddedP p l = none :=
  ignoreThenP_none_snd (wsP_run l) (thenIgnoreP_none_fst h)

theorem orNotP_some {p : PC α} {l r : List Char} {a : α}
    (h : p l = some (a, r)) : orNotP p l = some (some a, r) := by
  simp [orNotP, h]

theorem orNotP_none {p : PC α} {l : List Char}
    (h : p l = none) : orNotP p l = some (none, l) := by
  simp [orNotP, h]

theorem choiceP_cons_some {p : PC α} {ps : List (PC α)} {l : List Char} {res : α × List Char}
    (h : p l = some res) : choiceP (p :: ps) l = some res := by
  simp [choiceP, h]

theorem choiceP_cons_none {p : PC α} {ps : List (PC α)} {l : List Char}
    (h : p l = none) : choiceP (p :: ps) l = choiceP ps l := by
  simp [choiceP, h]

theorem choiceP_nil (l : List Char) : choiceP ([] : List (PC α)) l = none := rfl

theorem justSP_complete (t : String) (r : List Char) : justSP t (t.toList ++ r) = some (t, r) := by
  unfold justSP
  rw [List.take_left, if_pos rfl, List.drop_left]

theorem justSP_cons_ne {t : String} {c : Char} {cs : List Char}
    (ht : t.toList = c :: cs) {d : Char} (hne : d ≠ c) (l : List Char) :
    justSP t (d :: l) = none := by
  unfold justSP
  rw [ht, if_neg]
  intro hcontra
  rw [List.length_cons, List.take_succ_cons] at hcontra
  exact hne (List.cons.inj hcontra).1

theorem justSP_nil_none {t : String} {c : Char} {cs : List Char}
    (ht : t.toList = c :: cs) : justSP t [] = none := by
  unfold justSP
  rw [ht, if_neg]
  intro hcontra
  rw [List.take_nil] at hcontra
  exact List.noConfusion hcontra

theorem identP_complete {cs rest : List Char} (hcs : GoodIdentL cs)
    (hrest : HeadNot identChar rest) :
    identP (cs ++ rest) = some (String.mk cs, rest) := by
  cases cs with
  | nil => exact absurd hcs (fun h => h)
  | cons c t =>
    obtain ⟨hstart, hall⟩ := hcs
    obtain ⟨ht, hd⟩ := takeWhile_all_append hall hrest
    simp [identP, hstart, ht, hd]

theorem identP_cons_none {c : Char} (h : identStart c = false) (l : List Char) :
    identP (c :: l) = none := by
  simp [identP, h]

theorem toList_gt : (" > ").toList = ' ' :: '>' :: ' ' :: [] := rfl

theorem toList_scln : (" ; ").toList = ' ' :: ';' :: ' ' :: [] := rfl

theorem toList_colon : (" : ").toList = ' ' :: ':' :: ' ' :: [] := rfl

theorem headNot_ws_of_goodIdent {s : String} (h : GoodIdent s) (x : List Char) :
    HeadNot Char.isWhitespace (s.toList ++ x) := by
  obtain ⟨c, t, hs, hstart, _⟩ := goodIdent_cons h
  rw [hs]
  exact identStart_not_ws hstart

theorem headNot_ws_of_goodCmd {s : String} (h : GoodCmd s) (x : List Char) :
    HeadNot Char.isWhitespace (s.toList ++ x) := by
  obtain ⟨c, t, hs, hc, _⟩ := goodCmd_cons h
  rw [hs]
  exact (cmdChar_props hc).1

theorem paddedJust_cons_none {t : String} {ch : Char} (ht : t.toList = [ch]) {c : Char}
    (hws : c.isWhitespace = false) (hne : c ≠ ch) (l : List Char) :
    paddedP (justSP t) (c :: l) = none := by
  apply paddedP_none
  rw [dropWhile_headNot (p := Char.isWhitespace) (l := c :: l) hws]
  exact justSP_cons_ne ht hne l

theorem paddedJust_nil_none {t : String} {ch : Char} (ht : t.toList = [ch]) :
    paddedP (justSP t) [] = none := by
  apply paddedP_none
  rw [List.dropWhile_nil]
  exact justSP_nil_none ht

theorem commentP_cons_none {c : Char} (hws : c.isWhitespace = false) (hhash : c ≠ '#')
    (l : List Char) : commentP (c :: l) = none := by
  apply ignoredP_none
  apply paddedP_none
  rw [dropWhile_headNot (p := Char.isWhitespace) (l := c :: l) hws]
  exact seqP_none_fst (justSP_cons_ne rfl hhash l)

theorem commentP_nil_none : commentP [] = none := by
  apply ignoredP_none
  apply paddedP_none
  rw [List.dropWhile_nil]
  exact seqP_none_fst (justSP_nil_none rfl)

theorem newlineP_cons_none {c : Char} (h1 : c ≠ '\r') (h2 : c ≠ '\n') (l : List Char) :
    newlineP (c :: l) = none := by
  simp [newlineP, h1, h2]

theorem changeModeDelimiterP_cons_none {c : Char} (hws : c.isWhitespace = false)
    (hsemi : c ≠ ';') (l : List Char) : changeModeDelimiterP (c :: l) = none := by
  unfold changeModeDelimiterP
  exact paddedJust_cons_none rfl hws hsemi l

theorem changeModeDelimiterP_nil_none : changeModeDelimiterP [] = none := by
  unfold changeModeDelimiterP
  exact paddedJust_nil_none rfl

theorem cmdStopP_cons_none {c : Char} (h : cmdChar c = true) (l : List Char) :
    cmdStopP (c :: l) = none := by
  obtain ⟨hws, hhash, hsemi, hnl, hcr⟩ := cmdChar_props h
  unfold cmdStopP
  rw [choiceP_cons_none (commentP_cons_none hws hhash l),
      choiceP_cons_none (newlineP_cons_none hcr hnl l),
      choiceP_cons_none (ignoredP_none (changeModeDelimiterP_cons_none hws hsemi l)),
      choiceP_cons_none (show endP (c :: l) = none from rfl)]
  exact choiceP_nil _

theorem cmdStopP_nil : cmdStopP [] = some ((), []) := by
  unfold cmdStopP
  rw [choiceP_cons_none commentP_nil_none,
      choiceP_cons_none (show newlineP [] = none from rfl),
      choiceP_cons_none (ignoredP_none changeModeDelimiterP_nil_none)]
  exact choiceP_cons_some rfl

theorem cmdStopP_sp_semi (l : List Char) :
    cmdStopP (' ' :: ';' :: l) = some ((), l.dropWhile Char.isWhitespace) := by
  unfold cmdStopP
  have hcmt : commentP (' ' :: ';' :: l) = none := by
    apply ignoredP_none
    apply paddedP_none
    rw [dropWhile_ws_sp, dropWhile_headNot (headNot_cons (by decide) l)]
    exact seqP_none_fst (justSP_cons_ne rfl (by decide) l)
  rw [choiceP_cons_none hcmt,
      choiceP_cons_none (newlineP_cons_none (by decide) (by decide) _)]
  apply choiceP_cons_some
  apply ignoredP_comp
  apply paddedP_comp
  rw [dropWhile_ws_sp, dropWhile_headNot (headNot_cons (by decide) l)]
  exact justSP_complete ";" l

theorem manyGo_cmd (cs l : List Char) (hcs : ∀ c ∈ cs, cmdChar c = true)
    (hstop : ∃ u r, cmdStopP l = some (u, r)) :
    ∀ fuel, cs.length < fuel → manyGo (notP cmdStopP) fuel (cs ++ l) = (cs, l) := by
  induction cs with
  | nil =>
    intro fuel hf
    cases fuel with
    | zero => exact absurd hf (by simp)
    | succ n =>
      obtain ⟨u, r, hsr⟩ := hstop
      have hnot : notP cmdStopP l = none := by simp [notP, hsr]
      simp only [List.nil_append, manyGo, hnot]
  | cons c cs' ih =>
    intro fuel hf
    cases fuel with
    | zero => exact absurd hf (by simp)
    | succ n =>
      have hcm : cmdChar c = true := hcs c (List.mem_cons_self _ _)
      have hstep : notP cmdStopP (c :: (cs' ++ l)) = some (c, cs' ++ l) := by
        simp [notP, cmdStopP_cons_none hcm]
      have hlt : (cs' ++ l).length < (c :: (cs' ++ l)).length := by simp
      have hrec := ih (fun x hx => hcs x (List.mem_cons_of_mem _ hx)) n
        (Nat.lt_of_succ_lt_succ hf)
      simp only [List.cons_append, manyGo, hstep, if_pos hlt, hrec]

theorem commandP_end {cmd : String} (h : GoodCmd cmd) :
    commandP cmd.toList = some (cmd, []) := by
  have hdrop : cmd.toList.dropWhile Char.isWhitespace = cmd.toList := by
    have := headNot_ws_of_goodCmd h []
    rw [List.append_nil] at this
    exact dropWhile_headNot this
  have hloop := manyGo_cmd cmd.toList [] h.2 ⟨(), [], cmdStopP_nil⟩
    (cmd.toList.length + 1) (by omega)
  rw [List.append_nil] at hloop
  have hmany : manyP (notP cmdStopP) cmd.toList = some (cmd.toList, []) := by
    simp only [manyP, hloop]
  unfold commandP
  have hpad := paddedP_comp (hdrop ▸ hmany)
  rw [List.dropWhile_nil] at hpad
  rw [mapP_comp hpad, hdrop, mk_toList]

theorem commandP_semi {cmd : String} (h : GoodCmd cmd) (l : List Char) :
    commandP (cmd.toList ++ (' ' :: ';' :: l)) = some (cmd, ';' :: l) := by
  have hdrop : (cmd.toList ++ (' ' :: ';' :: l)).dropWhile Char.isWhitespace =
      cmd.toList ++ (' ' :: ';' :: l) :=
    dropWhile_headNot (headNot_ws_of_goodCmd h _)
  have hloop := manyGo_cmd cmd.toList (' ' :: ';' :: l) h.2
    ⟨(), l.dropWhile Char.isWhitespace, cmdStopP_sp_semi l⟩
    ((cmd.toList ++ (' ' :: ';' :: l)).length + 1)
    (by simp only [List.length_append, List.length_cons]; omega)
  have hmany : manyP (notP cmdStopP) (cmd.toList ++ (' ' :: ';' :: l)) =
      some (cmd.toList, ' ' :: ';' :: l) := by
    simp only [manyP, hloop]
  unfold commandP
  have hpad := paddedP_comp (hdrop ▸ hmany)
  rw [dropWhile_ws_sp, dropWhile_headNot (headNot_cons (by decide) l)] at hpad
  rw [mapP_comp hpad, mk_toList]

theorem changeModeP_end {n : String} (hn : GoodIdent n) :
    changeModeP n.toList = some ((if n = "default" then none else some n), []) := by
  have hdrop : n.toList.dropWhile Char.isWhitespace = n.toList := by
    have := headNot_ws_of_goodIdent hn []
    rw [List.append_nil] at this
    exact dropWhile_headNot this
  have hident : identP n.toList = some (n, []) := by
    have := identP_complete hn (show HeadNot identChar [] from trivial)
    rw [List.append_nil] at this
    rw [this, mk_toList]
  unfold changeModeP
  have hpad := paddedP_comp (hdrop ▸ hident)
  rw [List.dropWhile_nil] at hpad
  exact mapP_comp hpad

theorem semiChangeMode {n : String} (hn : GoodIdent n) :
    ignoreThenP changeModeDelimiterP changeModeP (';' :: ' ' :: n.toList) =
      some ((if n = "default" then none else some n), []) := by
  have hdelim : changeModeDelimiterP (';' :: ' ' :: n.toList) = some (";", n.toList) := by
    unfold changeModeDelimiterP
    have hjust : justSP ";" ((';' :: ' ' :: n.toList).dropWhile Char.isWhitespace) =
        some (";", ' ' :: n.toList) := by
      rw [dropWhile_headNot (headNot_cons (by decide) _)]
      exact justSP_complete ";" (' ' :: n.toList)
    have := paddedP_comp hjust
    rw [dropWhile_ws_sp] at this
    rw [this]
    congr 1
    have hh := headNot_ws_of_goodIdent hn []
    rw [List.append_nil] at hh
    rw [dropWhile_headNot hh]
  exact ignoreThenP_comp hdelim (changeModeP_end hn)

theorem paddedP_ident_on {m : String} (hm : GoodIdent m) {rest : List Char}
    (hrest : HeadNot identChar rest) :
    paddedP identP (m.toList ++ rest) = some (m, rest.dropWhile Char.isWhitespace) := by
  have hident : identP ((m.toList ++ rest).dropWhile Char.isWhitespace) = some (m, rest) := by
    rw [dropWhile_headNot (headNot_ws_of_goodIdent hm rest)]
    rw [identP_complete hm hrest, mk_toList]
  exact paddedP_comp hident

theorem modeSelectorP_on {m : String} (rest : List Char) (hm : GoodIdent m)
    (hrest : HeadNot Char.isWhitespace rest) :
    modeSelectorP (m.toList ++ (' ' :: '>' :: ' ' :: rest)) =
      some ((if m = "default" then none else some m), rest) := by
  have hpad : paddedP identP (m.toList ++ (' ' :: '>' :: ' ' :: rest)) =
      some (m, '>' :: ' ' :: rest) := by
    have := paddedP_ident_on hm
      (headNot_cons (show identChar ' ' = false by decide) ('>' :: ' ' :: rest))
    rw [dropWhile_ws_sp,
      dropWhile_headNot (headNot_cons (show ('>').isWhitespace = false by decide) _)] at this
    exact this
  have hdelim : modeDelimiterP ('>' :: ' ' :: rest) = some (">", rest) := by
    unfold modeDelimiterP
    have hjust : justSP ">" (('>' :: ' ' :: rest).dropWhile Char.isWhitespace) =
        some (">", ' ' :: rest) := by
      rw [dropWhile_headNot (headNot_cons (by decide) _)]
      exact justSP_complete ">" (' ' :: rest)
    have := paddedP_comp hjust
    rw [dropWhile_ws_sp, dropWhile_headNot hrest] at this
    exact this
  have hinner := thenIgnoreP_comp hpad hdelim
  unfold modeSelectorP
  rw [mapP_comp (orNotP_some hinner)]
  by_cases hd : m = "default"
  · simp [hd]
  · simp [hd]

theorem modeSelectorP_skip {k : String} {c : Char} (l : List Char) (hk : GoodIdent k)
    (hc_ws : c.isWhitespace = false) (hgt : c ≠ '>') :
    modeSelectorP (k.toList ++ (' ' :: c :: l)) =
      some (none, k.toList ++ (' ' :: c :: l)) := by
  have hpad : paddedP identP (k.toList ++ (' ' :: c :: l)) = some (k, c :: l) := by
    have := paddedP_ident_on hk
      (headNot_cons (show identChar ' ' = false by decide) (c :: l))
    rw [dropWhile_ws_sp, dropWhile_headNot (headNot_cons hc_ws _)] at this
    exact this
  have hdelim : modeDelimiterP (c :: l) = none := by
    unfold modeDelimiterP
    exact paddedJust_cons_none rfl hc_ws hgt l
  have hinner := thenIgnoreP_none_snd hpad hdelim
  unfold modeSelectorP
  rw [mapP_comp (orNotP_none hinner)]
  simp

theorem hotkeysP_single {k : String} {c : Char} (l : List Char) (hk : GoodIdent k)
    (hc_ws : c.isWhitespace = false) (hplus : c ≠ '+') :
    hotkeysP (k.toList ++ (' ' :: c :: l)) = some ([k], c :: l) := by
  have hident : identP (k.toList ++ (' ' :: c :: l)) =
      some (k, ' ' :: c :: l) := by
    rw [identP_complete hk (headNot_cons (by decide) _), mk_toList]
  have hitem : paddedP (choiceP [identP, intP]) (k.toList ++ (' ' :: c :: l)) =
      some (k, c :: l) := by
    have hdrop : (k.toList ++ (' ' :: c :: l)).dropWhile Char.isWhitespace =
        k.toList ++ (' ' :: c :: l) :=
      dropWhile_headNot (headNot_ws_of_goodIdent hk _)
    have := paddedP_comp (p := choiceP [identP, intP])
      (hdrop ▸ choiceP_cons_some hident)
    rw [dropWhile_ws_sp, dropWhile_headNot (headNot_cons hc_ws _)] at this
    exact this
  have htail : sepTailGo (justSP "+") (paddedP (choiceP [identP, intP]))
      ((c :: l).length + 1) (c :: l) = ([], c :: l) := by
    have hne : ignoreThenP (justSP "+") (paddedP (choiceP [identP, intP])) (c :: l) = none :=
      ignoreThenP_none_fst (justSP_cons_ne rfl hplus l)
    simp only [sepTailGo, hne]
  unfold hotkeysP separatedByP
  simp only [hitem, htail]

theorem actionP_semi {n : String} (hn : GoodIdent n) :
    actionP (';' :: ' ' :: n.toList) =
      some (((none : Option String), some (if n = "default" then none else some n)), []) := by
  have halt1 : mapP (fun ab => ((some ab.1 : Option String), ab.2))
      (seqP (ignoreThenP delimiterP commandP)
        (orNotP (ignoreThenP changeModeDelimiterP changeModeP)))
      (';' :: ' ' :: n.toList) = none := by
    apply mapP_none
    apply seqP_none_fst
    apply ignoreThenP_none_fst
    unfold delimiterP
    exact paddedJust_cons_none rfl (by decide) (by decide) _
  have halt2 := mapP_comp (f := fun a => ((none : Option String), some a)) (semiChangeMode hn)
  unfold actionP
  rw [choiceP_cons_none halt1]
  exact choiceP_cons_some halt2

theorem delimiterP_colon (l : List Char) (hl : HeadNot Char.isWhitespace l) :
    delimiterP (':' :: ' ' :: l) = some (":", l) := by
  unfold delimiterP
  have hjust : justSP ":" ((':' :: ' ' :: l).dropWhile Char.isWhitespace) =
      some (":", ' ' :: l) := by
    rw [dropWhile_headNot (headNot_cons (by decide) _)]
    exact justSP_complete ":" (' ' :: l)
  have := paddedP_comp hjust
  rw [dropWhile_ws_sp, dropWhile_headNot hl] at this
  exact this

theorem actionP_colon_end {cmd : String} (hc : GoodCmd cmd) :
    actionP (':' :: ' ' :: cmd.toList) =
      some ((some cmd, (none : Option (Option String))), []) := by
  have hdel : delimiterP (':' :: ' ' :: cmd.toList) = some (":", cmd.toList) := by
    apply delimiterP_colon
    have := headNot_ws_of_goodCmd hc []
    rw [List.append_nil] at this
    exact this
  have hcmd := commandP_end hc
  have hornot : orNotP (ignoreThenP changeModeDelimiterP changeModeP) [] =
      some (none, []) :=
    orNotP_none (ignoreThenP_none_fst changeModeDelimiterP_nil_none)
  have hseq := seqP_comp (ignoreThenP_comp hdel hcmd) hornot
  unfold actionP
  exact choiceP_cons_some (mapP_comp hseq)

theorem actionP_colon_semi {cmd n : String} (hc : GoodCmd cmd) (hn : GoodIdent n) :
    actionP (':' :: ' ' :: (cmd.toList ++ (' ' :: ';' :: ' ' :: n.toList))) =
      some ((some cmd, some (if n = "default" then none else some n)), []) := by
  have hdel : delimiterP (':' :: ' ' :: (cmd.toList ++ (' ' :: ';' :: ' ' :: n.toList))) =
      some (":", cmd.toList ++ (' ' :: ';' :: ' ' :: n.toList)) :=
    delimiterP_colon _ (headNot_ws_of_goodCmd hc _)
  have hcmd := commandP_semi hc (' ' :: n.toList)
  have hornot := orNotP_some (semiChangeMode hn)
  have hseq := seqP_comp (ignoreThenP_comp hdel hcmd) hornot
  unfold actionP
  exact choiceP_cons_some (mapP_comp hseq)

/-! The five canonical direct-binding shapes. -/

theorem bindingP_mode_semi {m k n : String} (hm : GoodIdent m) (hk : GoodIdent k)
    (hn : GoodIdent n) :
    bindingP (m.toList ++ (' ' :: '>' :: ' ' ::
        (k.toList ++ (' ' :: ';' :: ' ' :: n.toList)))) =
      some ((((if m = "default" then none else some m), [k]),
        ((none : Option String), some (if n = "default" then none else some n))), []) := by
  have hms := modeSelectorP_on (k.toList ++ (' ' :: ';' :: ' ' :: n.toList)) hm
    (headNot_ws_of_goodIdent hk _)
  have hhk := hotkeysP_single (k := k) (c := ';') (' ' :: n.toList) hk (by decide) (by decide)
  have hac := actionP_semi hn
  exact seqP_comp (seqP_comp hms hhk) hac

theorem bindingP_plain_semi {k n : String} (hk : GoodIdent k) (hn : GoodIdent n) :
    bindingP (k.toList ++ (' ' :: ';' :: ' ' :: n.toList)) =
      some (((none, [k]),
        ((none : Option String), some (if n = "default" then none else some n))), []) := by
  have hms := modeSelectorP_skip (k := k) (c := ';') (' ' :: n.toList) hk (by decide) (by decide)
  have hhk := hotkeysP_single (k := k) (c := ';') (' ' :: n.toList) hk (by decide) (by decide)
  have hac := actionP_semi hn
  exact seqP_comp (seqP_comp hms hhk) hac

theorem bindingP_mode_cmd {m k cmd : String} (hm : GoodIdent m) (hk : GoodIdent k)
    (hc : GoodCmd cmd) :
    bindingP (m.toList ++ (' ' :: '>' :: ' ' :: (k.toList ++ (' ' :: ':' :: ' ' :: cmd.toList)))) =
      some ((((if m = "default" then none else some m), [k]),
        (some cmd, (none : Option (Option String)))), []) := by
  have hms := modeSelectorP_on (k.toList ++ (' ' :: ':' :: ' ' :: cmd.toList)) hm
    (headNot_ws_of_goodIdent hk _)
  have hhk := hotkeysP_single (k := k) (c := ':') (' ' :: cmd.toList) hk (by decide) (by decide)
  have hac := actionP_colon_end hc
  exact seqP_comp (seqP_comp hms hhk) hac

theorem bindingP_plain_cmd {k cmd : String} (hk : GoodIdent k) (hc : GoodCmd cmd) :
    bindingP (k.toList ++ (' ' :: ':' :: ' ' :: cmd.toList)) =
      some (((none, [k]), (some cmd, (none : Option (Option String)))), []) := by
  have hms := modeSelectorP_skip (k := k) (c := ':') (' ' :: cmd.toList) hk (by decide) (by decide)
  have hhk := hotkeysP_single (k := k) (c := ':') (' ' :: cmd.toList) hk (by decide) (by decide)
  have hac := actionP_colon_end hc
  exact seqP_comp (seqP_comp hms hhk) hac

theorem bindingP_plain_cmd_semi {k cmd n : String} (hk : GoodIdent k) (hc : GoodCmd cmd)
    (hn : GoodIdent n) :
    bindingP (k.toList ++ (' ' :: ':' :: ' ' ::
        (cmd.toList ++ (' ' :: ';' :: ' ' :: n.toList)))) =
      some (((none, [k]),
        (some cmd, some (if n = "default" then none else some n))), []) := by
  have hms := modeSelectorP_skip (k := k) (c := ':')
    (' ' :: (cmd.toList ++ (' ' :: ';' :: ' ' :: n.toList))) hk (by decide) (by decide)
  have hhk := hotkeysP_single (k := k) (c := ':')
    (' ' :: (cmd.toList ++ (' ' :: ';' :: ' ' :: n.toList))) hk (by decide) (by decide)
  have hac := actionP_colon_semi hc hn
  exact seqP_comp (seqP_comp hms hhk) hac

theorem toList_append (a b : String) : (a ++ b).toList = a.toList ++ b.toList := by
  cases a
  cases b
  rfl

/-! ## The claims -/

/-- C1: for every reachable state of the mode state machine (the state
after `main`'s startup `activate_mode(&None)`, closed under further
`activate_mode` calls), the set of handles registered with the OS equals
exactly the set of handles whose descriptor's `mode` equals the current
mode. -/
theorem c1_mode_registration_invariant {fromStr : String → Option Code}
    {bindings : List HotkeyBinding} {s : MMState}
    (h : Reachable fromStr bindings s) :
    s.registered = modeHandleSet s s.mode :=
  (reachable_inv h).2

/-- Witness for C1 at a one-binding configuration. -/
theorem c1_mode_registration_invariant_witness :
    s1W.registered = modeHandleSet s1W s1W.mode :=
  c1_mode_registration_invariant
    (@Reachable.startup fromStr0 [bW] s0W s1W (by decide) (by decide))

/-- C2, counterexample: two descriptors produced by normalization that
agree on mode, modifier set and trigger key but differ on the command
are NOT equal — the derived equality uses all six fields, so the claimed
"payload does not participate in equality" is false. -/
theorem c2_payload_identity_cex :
    tryFrom fromStr0 bC1 = TfResult.ok dC1 ∧ tryFrom fromStr0 bC2 = TfResult.ok dC2 ∧
    dC1.mode = dC2.mode ∧ dC1.mod_keys = dC2.mod_keys ∧ dC1.vkey = dC2.vkey ∧
    dC1 ≠ dC2 := by
  decide

/-- C2, amended: two `HkmData` descriptors are equal iff ALL six fields
(mode, modifier set, trigger key, command, mode action, process filter)
are equal — the payload fields do participate in equality and hashing
(the Rust struct derives `PartialEq`, `Eq`, `Hash` structurally). -/
theorem c2_hkmdata_eq_iff (d₁ d₂ : HkmData) :
    d₁ = d₂ ↔ (d₁.mode = d₂.mode ∧ d₁.mod_keys = d₂.mod_keys ∧ d₁.vkey = d₂.vkey ∧
      d₁.command = d₂.command ∧ d₁.internal_action = d₂.internal_action ∧
      d₁.process_name = d₂.process_name) := by
  cases d₁
  cases d₂
  simp [HkmData.mk.injEq]

/-- C3, counterexample: a binding whose trigger token is recognized by
neither the canonical table nor the platform parser makes `try_from`
PANIC (`key_code_from_string(...).unwrap()`), not return the declared
`HkError` to the caller. -/
theorem c3_unknown_key_cex :
    tryFrom fromStr0 bBad = TfResult.panicked ∧ tryFrom fromStr0 bBad ≠ TfResult.err := by
  decide

/-- C3, amended: an unknown trigger key makes the whole build PANIC
(aborting the process) rather than return an error; and while a build
does succeed, it has registered nothing with the OS (registration only
happens later, inside `activate_mode`), so the abort indeed precedes any
OS hotkey registration. -/
theorem c3_unknown_key_aborts_build (fromStr : String → Option Code)
    (bs : List HotkeyBinding) (b : HotkeyBinding) (t : String) (ms : List String)
    (hmem : b ∈ bs) (hsplit : splitLast b.keys = some (t, ms))
    (hkey : keyCodeFromString fromStr t = none) :
    ModeManager.new fromStr bs = NewResult.panicked ∧
    (∀ (bs' : List HotkeyBinding) (s : MMState),
      ModeManager.new fromStr bs' = NewResult.ok s → s.registered = ∅) := by
  constructor
  · have hpan : tryFrom fromStr b = TfResult.panicked := by
      unfold tryFrom
      rw [hsplit]
      simp only [hkey]
    exact newGo_panics fromStr bs [] [] hmem hpan
  · intro bs' s hok
    exact (new_props hok).2.1

/-- Witness for C3's amended theorem at a concrete bad binding. -/
theorem c3_unknown_key_aborts_build_witness :
    ModeManager.new fromStr0 [bBad] = NewResult.panicked :=
  (c3_unknown_key_aborts_build fromStr0 [bBad] bBad "zzz" ["alt"]
    (by decide) (by decide) (by decide)).1

/-- C4, counterexample: a fired event whose id matches no entry of the
reverse lookup makes the dispatcher PANIC (`find(...).unwrap()`), i.e.
the model's `none`, instead of silently dropping the event and
continuing. -/
theorem c4_unknown_event_cex :
    dispatchStep (fun _ => 0) s1W 5 = none := by
  decide

/-- C4, amended: whenever no `hotkeys` entry's id equals the fired
event's id, the dispatch step panics (crashing the event loop) rather
than silently dropping the event. -/
theorem c4_unknown_event_panics (idFn : HotKey → Nat) (s : MMState) (eid : Nat)
    (h : ∀ p ∈ s.hotkeys, idFn p.2 ≠ eid) :
    dispatchStep idFn s eid = none := by
  have hfind : s.hotkeys.find? (fun p => idFn p.2 = eid) = none :=
    List.find?_eq_none.mpr (fun p hp => by simpa using h p hp)
  simp [dispatchStep, hfind]

/-- Witness for C4's amended theorem. -/
theorem c4_unknown_event_panics_witness :
    dispatchStep (fun _ => 1) s1W 7 = none :=
  c4_unknown_event_panics (fun _ => 1) s1W 7 (by decide)

/-- C5, counterexample: the `.shell` directive is not optional — the
very document that parses with it fails to parse without it. -/
theorem c5_shell_not_optional_cex :
    parseWhkdrc "alt + h : x" = none ∧ parseWhkdrc srcC5 = some docC5 := by
  decide

/-- C5, amended: the grammar requires exactly one `.shell` directive; a
document can only parse when the literal `.shell` occurs in its text, so
a document omitting the directive never parses (there is no default). -/
theorem c5_shell_mandatory (src : String) (doc : Whkdrc)
    (h : parseWhkdrc src = some doc) :
    containsSeg (".shell".toList) src.toList = true :=
  parse_requires_shell h

/-- Witness for C5's amended theorem. -/
theorem c5_shell_mandatory_witness :
    containsSeg (".shell".toList) srcC5.toList = true :=
  c5_shell_mandatory srcC5 docC5 (by decide)

/-- C6, counterexample: a document with a process-scoped block parses
its `Firefox` entry into `app_bindings`, but the mode manager built (as
in `main`) from `doc.bindings` alone contains no descriptor with a
process filter at all — process-filter bindings are never registered,
hence never dispatched, and the foreground-process query path is dead
(commented-out) code. -/
theorem c6_process_filter_dead_cex :
    parseWhkdrc srcC6 = some docC6 ∧
    (docC6.app_bindings.all
      (fun ka => ka.2.all (fun b => b.process_name = some "Firefox"))) = true ∧
    docC6.app_bindings ≠ [] ∧
    ModeManager.new fromStr0 docC6.bindings = NewResult.ok sC6 ∧
    (sC6.hotkeys.all (fun p => p.1.process_name = none)) = true := by
  decide

/-- C6, amended: every direct binding of a parsed document has
`process_filter` unset, and consequently every descriptor held by the
mode manager that `main` builds from `doc.bindings` carries no process
filter: process-scoped bindings are parsed but never registered or
dispatched, and the dispatcher never queries the foreground process. -/
theorem c6_process_filter_never_dispatched (src : String) (doc : Whkdrc)
    (fromStr : String → Option Code) (st : MMState)
    (hparse : parseWhkdrc src = some doc)
    (hnew : ModeManager.new fromStr doc.bindings = NewResult.ok st) :
    (doc.bindings.all (fun b => b.process_name = none)) = true ∧
    (st.hotkeys.all (fun p => p.1.process_name = none)) = true := by
  have hb := parse_bindings_no_filter hparse
  constructor
  · rw [List.all_eq_true]
    intro b hbm
    simp [hb b hbm]
  · rw [List.all_eq_true]
    intro p hp
    rcases newGo_hks_from fromStr doc.bindings [] [] st hnew p hp with h' | ⟨b, hbm, hok⟩
    · simp at h'
    · have := (tryFrom_ok_fields hok).2.2.2
      simp [this, hb b hbm]

/-- Witness for C6's amended theorem at the Firefox document. -/
theorem c6_process_filter_never_dispatched_witness :
    (docC6.bindings.all (fun b => b.process_name = none)) = true ∧
    (sC6.hotkeys.all (fun p => p.1.process_name = none)) = true :=
  c6_process_filter_never_dispatched srcC6 docC6 fromStr0 sC6 (by decide) (by decide)

/-- C7: the direct-binding grammar's mode and mode-action mapping, for
arbitrary identifiers: an absent mode prefix or the literal `default >`
yields `mode = none` while any other `name >` yields `some name`; a
trailing `; default` yields `internal_action = some none`, `; name`
yields `some (some name)`, and no `;` clause yields `none`. The last
conjunct checks the spec's four-line mode-graph example end to end. -/
theorem c7_binding_grammar (m k n cmd : String) (hm : GoodIdent m) (hk : GoodIdent k)
    (hn : GoodIdent n) (hcmd : GoodCmd cmd) :
    (bindingP ((m ++ " > " ++ k ++ " ; " ++ n).toList) =
      some ((((if m = "default" then none else some m), [k]),
        ((none : Option String), some (if n = "default" then none else some n))), [])) ∧
    (bindingP ((k ++ " ; " ++ n).toList) =
      some (((none, [k]),
        ((none : Option String), some (if n = "default" then none else some n))), [])) ∧
    (bindingP ((m ++ " > " ++ k ++ " : " ++ cmd).toList) =
      some ((((if m = "default" then none else some m), [k]),
        (some cmd, (none : Option (Option String)))), [])) ∧
    (bindingP ((k ++ " : " ++ cmd).toList) =
      some (((none, [k]), (some cmd, (none : Option (Option String)))), [])) ∧
    (bindingP ((k ++ " : " ++ cmd ++ " ; " ++ n).toList) =
      some (((none, [k]),
        (some cmd, some (if n = "default" then none else some n))), [])) ∧
    parseWhkdrc mmSrc = some mmDoc := by
  refine ⟨?_, ?_, ?_, ?_, ?_, by decide⟩
  · have := bindingP_mode_semi hm hk hn
    simp only [toList_append, toList_gt, toList_scln, List.append_assoc,
      List.cons_append, List.nil_append]
    simpa using this
  · have := bindingP_plain_semi hk hn
    simp only [toList_append, toList_scln, List.append_assoc,
      List.cons_append, List.nil_append]
    simpa using this
  · have := bindingP_mode_cmd hm hk hcmd
    simp only [toList_append, toList_gt, toList_colon, List.append_assoc,
      List.cons_append, List.nil_append]
    simpa using this
  · have := bindingP_plain_cmd hk hcmd
    simp only [toList_append, toList_colon, List.append_assoc,
      List.cons_append, List.nil_append]
    simpa using this
  · have := bindingP_plain_cmd_semi hk hcmd hn
    simp only [toList_append, toList_colon, toList_scln, List.append_assoc,
      List.cons_append, List.nil_append]
    simpa using this

/-- Witness for C7 at concrete identifiers. -/
theorem c7_binding_grammar_witness :
    bindingP (("window" ++ " > " ++ "h" ++ " ; " ++ "default").toList) =
      some ((((if ("window" : String) = "default" then none else some "window"), ["h"]),
        ((none : Option String),
          some (if ("default" : String) = "default" then none else some "default"))), []) :=
  (c7_binding_grammar "window" "h" "default" "echo"
    (by decide) (by decide) (by decide) (by decide)).1

/-- C8: activating a mode with no entry in the binding map from any
reachable state returns `Ok` and leaves ZERO registered handles: the
current mode's handles are unregistered and nothing is registered. -/
theorem c8_unknown_mode_activation {fromStr : String → Option Code}
    {bindings : List HotkeyBinding} {s : MMState}
    (h : Reachable fromStr bindings s) (m : String)
    (hmiss : assocFind s.binding_map (some m) = none) :
    activateMode s (some m) =
      ActResult.ok { s with mode := some m, registered := ∅ } := by
  obtain ⟨hinv, hreg⟩ := reachable_inv h
  have hact := activateMode_eq hinv (some m)
  have hempty : modeHandleSet s (some m) = ∅ := by
    have he := (collect_modeHandles hinv (some m)).2
    rw [hmiss] at he
    simpa using he.symm
  rw [hact, hempty, hreg, Finset.sdiff_self, Finset.union_empty]

/-- Witness for C8: activating the absent mode `ghost`. -/
theorem c8_unknown_mode_activation_witness :
    activateMode s1W (some "ghost") =
      ActResult.ok { s1W with mode := some "ghost", registered := ∅ } :=
  c8_unknown_mode_activation
    (@Reachable.startup fromStr0 [bW] s0W s1W (by decide) (by decide)) "ghost" (by decide)

/-- C9: trigger-key normalization is case-insensitive on the canonical
table: the token is lowercased before the lookup, so any two tokens with
the same lowercase form normalize to the same key code whenever that
form is in the table. -/
theorem c9_case_insensitive (fromStr : String → Option Code) (k₁ k₂ : String) (c : Code)
    (hlow : strToLower k₁ = strToLower k₂) (hcan : keyCodeCanonical (strToLower k₁) = some c) :
    keyCodeFromString fromStr k₁ = some c ∧ keyCodeFromString fromStr k₂ = some c := by
  constructor
  · unfold keyCodeFromString
    rw [hcan]
  · unfold keyCodeFromString
    rw [← hlow, hcan]

/-- Witness for C9: `"H"` and `"h"` both normalize to `KeyH`. -/
theorem c9_case_insensitive_witness :
    keyCodeFromString fromStr0 "H" = some Code.KeyH ∧
    keyCodeFromString fromStr0 "h" = some Code.KeyH :=
  c9_case_insensitive fromStr0 "H" "h" Code.KeyH (by decide) (by decide)

/-- C10: normalization is total only on non-empty key sequences: with an
empty `keys` list `split_last().unwrap()` PANICS (it does not return an
error — `try_from` never returns its `HkError`), while any non-empty
`keys` list makes the split succeed. -/
theorem c10_split_last_totality (fromStr : String → Option Code) (value : HotkeyBinding) :
    (value.keys = [] → tryFrom fromStr value = TfResult.panicked) ∧
    (value.keys ≠ [] → (splitLast value.keys).isSome = true) ∧
    tryFrom fromStr value ≠ TfResult.err := by
  refine ⟨?_, fun h => splitLast_isSome h, tryFrom_ne_err fromStr value⟩
  intro hk
  unfold tryFrom
  rw [hk]
  rfl

/-- Witness for C10 at an empty-keys and a two-key binding. -/
theorem c10_split_last_totality_witness :
    tryFrom fromStr0 bEmptyW = TfResult.panicked ∧
    (splitLast bW.keys).isSome = true :=
  ⟨(c10_split_last_totality fromStr0 bEmptyW).1 rfl,
   (c10_split_last_totality fromStr0 bW).2.1 (by decide)⟩

end Whkd
